import Mathlib

/-!
Verification of the fMP4 box-tree parser and timing/caption extraction logic
(src/utils/mp4-tools.ts). Byte buffers (JS Uint8Array) are modelled as
List Nat whose entries are byte values; out-of-range indexing, which yields
undefined in JS and is coerced to 0 by the bit operations used here, is
modelled with List.getD _ _ 0. JS numbers are modelled exactly: integer
quantities as Nat/Int, seconds/divisions as Rat.
-/

namespace Mp4Tools

/-- JS ToInt32: reduce an integer into the signed 32-bit range. -/
def toInt32 (v : Int) : Int := (v + 2147483648) % 4294967296 - 2147483648

/-- readUint16 (mp4-tools.ts:35): big-endian 16-bit read. The source computes
(buffer[offset] << 8) | buffer[offset+1] and corrects a negative
sign-extended result by adding 2^16; for byte inputs the shift never
overflows into the sign bit, so the value is the plain weighted sum. -/
def readUint16 (buffer : List Nat) (offset : Nat) : Nat :=
  buffer.getD offset 0 * 256 + buffer.getD (offset + 1) 0

/-- readUint32 (mp4-tools.ts:49): big-endian 32-bit read. The source ORs four
shifted bytes (a 32-bit signed intermediate) and corrects a negative result by
adding 2^32; this is the weighted byte sum wrapped by ToInt32 and then
normalized back into the unsigned range. -/
def readUint32 (buffer : List Nat) (offset : Nat) : Nat :=
  let sum : Int := buffer.getD offset 0 * 16777216 + buffer.getD (offset + 1) 0 * 65536 +
    buffer.getD (offset + 2) 0 * 256 + buffer.getD (offset + 3) 0
  let val := toInt32 sum
  (if val < 0 then val + 4294967296 else val).toNat

/-- The sign-correction dance in readUint32 is reduction mod 2^32. -/
theorem readUint32_eq_mod (buffer : List Nat) (offset : Nat) :
    readUint32 buffer offset =
      (buffer.getD offset 0 * 16777216 + buffer.getD (offset + 1) 0 * 65536 +
        buffer.getD (offset + 2) 0 * 256 + buffer.getD (offset + 3) 0) % 4294967296 := by
  simp only [readUint32, toInt32]
  omega

theorem readUint32_lt (buffer : List Nat) (offset : Nat) :
    readUint32 buffer offset < 4294967296 := by
  rw [readUint32_eq_mod]; omega

/-- writeUint32 (mp4-tools.ts:66): big-endian in-place 32-bit write. Each
stored byte is the JS expression (value >> k) & 0xff followed by the
Uint8Array ToUint8 coercion; on integers that is flooring division by 2^k of
the ToInt32 value, reduced mod 256. Out-of-range stores are dropped, as for a
typed array (List.set is the identity out of range). -/
def writeUint32 (buffer : List Nat) (offset : Nat) (value : Int) : List Nat :=
  let w := toInt32 value
  ((((buffer.set offset (w / 16777216 % 256).toNat).set
    (offset + 1) (w / 65536 % 256).toNat).set
    (offset + 2) (w / 256 % 256).toNat).set
    (offset + 3) (w % 256).toNat)

theorem length_writeUint32 (buffer : List Nat) (offset : Nat) (value : Int) :
    (writeUint32 buffer offset value).length = buffer.length := by
  simp [writeUint32]

theorem getD_set_self (l : List Nat) (i a : Nat) (h : i < l.length) :
    (l.set i a).getD i 0 = a := by
  simp [List.getD_eq_getElem?_getD, List.getElem?_set_self h]

theorem getD_set_ne (l : List Nat) (i j a : Nat) (h : i ≠ j) :
    (l.set i a).getD j 0 = l.getD j 0 := by
  simp [List.getD_eq_getElem?_getD, List.getElem?_set_ne h]

theorem getD_writeUint32_ne (buffer : List Nat) (offset : Nat) (value : Int)
    (j : Nat) (h : j < offset ∨ offset + 3 < j) :
    (writeUint32 buffer offset value).getD j 0 = buffer.getD j 0 := by
  unfold writeUint32
  rw [getD_set_ne _ _ _ _ (by omega), getD_set_ne _ _ _ _ (by omega),
    getD_set_ne _ _ _ _ (by omega), getD_set_ne _ _ _ _ (by omega)]

theorem getD_writeUint32_0 (buffer : List Nat) (offset : Nat) (value : Int)
    (hlen : offset < buffer.length) :
    (writeUint32 buffer offset value).getD offset 0 = ((toInt32 value) / 16777216 % 256).toNat := by
  unfold writeUint32
  rw [getD_set_ne _ _ _ _ (by omega), getD_set_ne _ _ _ _ (by omega),
    getD_set_ne _ _ _ _ (by omega), getD_set_self _ _ _ hlen]

theorem getD_writeUint32_1 (buffer : List Nat) (offset : Nat) (value : Int)
    (hlen : offset + 1 < buffer.length) :
    (writeUint32 buffer offset value).getD (offset + 1) 0 =
      ((toInt32 value) / 65536 % 256).toNat := by
  unfold writeUint32
  rw [getD_set_ne _ _ _ _ (by omega), getD_set_ne _ _ _ _ (by omega),
    getD_set_self _ _ _ (by simpa using hlen)]

theorem getD_writeUint32_2 (buffer : List Nat) (offset : Nat) (value : Int)
    (hlen : offset + 2 < buffer.length) :
    (writeUint32 buffer offset value).getD (offset + 2) 0 =
      ((toInt32 value) / 256 % 256).toNat := by
  unfold writeUint32
  rw [getD_set_ne _ _ _ _ (by omega), getD_set_self _ _ _ (by simpa using hlen)]

theorem getD_writeUint32_3 (buffer : List Nat) (offset : Nat) (value : Int)
    (hlen : offset + 3 < buffer.length) :
    (writeUint32 buffer offset value).getD (offset + 3) 0 = ((toInt32 value) % 256).toNat := by
  unfold writeUint32
  rw [getD_set_self _ _ _ (by simpa using hlen)]

/-- Reading 32 bits back immediately after writing them returns the written
value reduced mod 2^32. -/
theorem readUint32_writeUint32 (buffer : List Nat) (offset : Nat) (value : Int)
    (h : offset + 3 < buffer.length) :
    readUint32 (writeUint32 buffer offset value) offset = (value % 4294967296).toNat := by
  rw [readUint32_eq_mod, getD_writeUint32_0 _ _ _ (by omega),
    getD_writeUint32_1 _ _ _ (by omega), getD_writeUint32_2 _ _ _ (by omega),
    getD_writeUint32_3 _ _ _ (by omega)]
  unfold toInt32
  omega

/-- Reads at byte ranges disjoint from the written range are unaffected. -/
theorem readUint32_writeUint32_disjoint (buffer : List Nat) (o o' : Nat) (value : Int)
    (h : o' + 3 < o ∨ o + 3 < o') :
    readUint32 (writeUint32 buffer o value) o' = readUint32 buffer o' := by
  rw [readUint32_eq_mod, readUint32_eq_mod,
    getD_writeUint32_ne _ _ _ _ (by omega), getD_writeUint32_ne _ _ _ _ (by omega),
    getD_writeUint32_ne _ _ _ _ (by omega), getD_writeUint32_ne _ _ _ _ (by omega)]

/-- Mp4BoxData (mp4-tools.ts:7): a non-owning view into a byte buffer.
The source field named end is a reserved word in Lean and is called stop. -/
structure Mp4BoxData where
  data : List Nat
  start : Nat
  stop : Nat
  deriving DecidableEq

/-- The cursor advance of one sibling iteration of the findBox loop
(mp4-tools.ts:108,126): endbox = size > 1 ? i + size : end. -/
def nextBoxCursor (data : List Nat) (i stop : Nat) : Nat :=
  if 1 < readUint32 data i then i + readUint32 data i else stop

/-- The sibling-scan loop of findBox (mp4-tools.ts:105-127), with explicit
iteration fuel so that it is structurally recursive and computable. emit is
true when the path has exactly one remaining segment; sub performs the
recursive search into a child range with the tail of the path. The type
comparison bin2str(data.subarray(i+4, i+8)) === path[0] is byte-list equality
(String.fromCharCode is injective on byte values). -/
def boxScanF (data : List Nat) (p : List Nat) (emit : Bool)
    (sub : Nat → Nat → List Mp4BoxData) (stop : Nat) : Nat → Nat → List Mp4BoxData
  | 0, _ => []
  | fuel + 1, i =>
    if i < stop then
      (if (data.drop (i + 4)).take 4 = p then
        (if emit then [⟨data, i + 8, nextBoxCursor data i stop⟩]
         else sub (i + 8) (nextBoxCursor data i stop))
       else [])
      ++ boxScanF data p emit sub stop fuel (nextBoxCursor data i stop)
    else []

theorem nextBoxCursor_gt (data : List Nat) (i stop : Nat) (h : i < stop) :
    i < nextBoxCursor data i stop := by
  unfold nextBoxCursor; split <;> omega

theorem nextBoxCursor_fuel (data : List Nat) (i stop fuel : Nat) (h : i < stop)
    (hf : stop - i ≤ fuel + 1) : stop - nextBoxCursor data i stop ≤ fuel := by
  unfold nextBoxCursor; split <;> omega

/-- Any fuel of at least stop - i computes the same scan: the loop terminates
within stop - i iterations. -/
theorem boxScanF_stable (data : List Nat) (p : List Nat) (emit : Bool)
    (sub : Nat → Nat → List Mp4BoxData) (stop : Nat) :
    ∀ f1 f2 i, stop - i ≤ f1 → stop - i ≤ f2 →
      boxScanF data p emit sub stop f1 i = boxScanF data p emit sub stop f2 i := by
  intro f1
  induction f1 using Nat.strong_induction_on with
  | _ f1 ih =>
    intro f2 i h1 h2
    match f1, f2 with
    | 0, 0 => rfl
    | 0, g2 + 1 =>
      have : ¬ i < stop := by omega
      simp [boxScanF, this]
    | g1 + 1, 0 =>
      have : ¬ i < stop := by omega
      simp [boxScanF, this]
    | g1 + 1, g2 + 1 =>
      show boxScanF data p emit sub stop (g1 + 1) i = boxScanF data p emit sub stop (g2 + 1) i
      rw [boxScanF, boxScanF]
      by_cases h : i < stop
      · simp only [if_pos h]
        rw [ih g1 (by omega) g2 (nextBoxCursor data i stop)
          (nextBoxCursor_fuel data i stop g1 h h1)
          (nextBoxCursor_fuel data i stop g2 h h2)]
      · simp [h]

/-- findBox (mp4-tools.ts:82-131) over an explicit (data, start, stop) view;
structural recursion on the path, sibling scan via boxScanF with fuel
stop - start. -/
def findBox (data : List Nat) (start stop : Nat) : List (List Nat) → List Mp4BoxData
  | [] => []
  | p :: rest =>
    boxScanF data p rest.isEmpty (fun s t => findBox data s t rest) stop (stop - start) start

/-- findBox applied to a raw buffer (the Uint8Array branch of the source). -/
def findBoxTop (input : List Nat) (path : List (List Nat)) : List Mp4BoxData :=
  findBox input 0 input.length path

/-- findBox applied to an Mp4BoxData view (the boxed branch of the source). -/
def findBoxView (input : Mp4BoxData) (path : List (List Nat)) : List Mp4BoxData :=
  findBox input.data input.start input.stop path

/-- One-step unfolding of the sibling scan of findBox. -/
theorem findBox_cons_unfold (data : List Nat) (i stop : Nat) (p : List Nat)
    (rest : List (List Nat)) :
    findBox data i stop (p :: rest) =
      if i < stop then
        (if (data.drop (i + 4)).take 4 = p then
          (if rest.isEmpty then [⟨data, i + 8, nextBoxCursor data i stop⟩]
           else findBox data (i + 8) (nextBoxCursor data i stop) rest)
         else [])
        ++ findBox data (nextBoxCursor data i stop) stop (p :: rest)
      else [] := by
  by_cases h : i < stop
  · have hs : stop - i = (stop - i - 1) + 1 := by omega
    rw [findBox, hs, boxScanF]
    simp only [if_pos h]
    rw [boxScanF_stable data p rest.isEmpty _ stop (stop - i - 1)
      (stop - nextBoxCursor data i stop) (nextBoxCursor data i stop)
      (nextBoxCursor_fuel data i stop (stop - i - 1) h (by omega)) (Nat.le_refl _)]
    rfl
  · have hs : stop - i = 0 := by omega
    rw [findBox, hs, boxScanF, if_neg h]

/-- Iteration count of one sibling scan, fuelled like boxScanF. -/
def boxScanStepsF (data : List Nat) (stop : Nat) : Nat → Nat → Nat
  | 0, _ => 0
  | fuel + 1, i =>
    if i < stop then boxScanStepsF data stop fuel (nextBoxCursor data i stop) + 1 else 0

/-- Iteration count of the findBox sibling loop over the range i..stop. -/
def boxScanSteps (data : List Nat) (i stop : Nat) : Nat :=
  boxScanStepsF data stop (stop - i) i

theorem boxScanStepsF_le (data : List Nat) (stop : Nat) :
    ∀ fuel i, stop - i ≤ fuel → boxScanStepsF data stop fuel i ≤ stop - i := by
  intro fuel
  induction fuel with
  | zero => intro i h; simp [boxScanStepsF]
  | succ fuel ih =>
    intro i h
    rw [boxScanStepsF]
    by_cases hlt : i < stop
    · simp only [if_pos hlt]
      have hc := nextBoxCursor_gt data i stop hlt
      have hf := nextBoxCursor_fuel data i stop fuel hlt h
      have := ih (nextBoxCursor data i stop) hf
      omega
    · simp [hlt]

/-- C10: findBox terminates on every input buffer and every path, including
malformed inputs with lying size fields: a size field greater than 1 advances
the cursor by at least 2 bytes, a size of 0 or 1 jumps it to the container
end; hence each sibling scan performs at most stop - i iterations, and giving
the loop any extra fuel beyond stop - i never changes its result. Recursion
depth is bounded by the path length because findBox is structurally recursive
on the path. -/
theorem findBox_termination (data : List Nat) (i stop : Nat) :
    (readUint32 data i ≤ 1 → nextBoxCursor data i stop = stop) ∧
    (1 < readUint32 data i → i + 2 ≤ nextBoxCursor data i stop) ∧
    boxScanSteps data i stop ≤ stop - i ∧
    (∀ (p : List Nat) (emit : Bool) (sub : Nat → Nat → List Mp4BoxData) (extra : Nat),
      boxScanF data p emit sub stop (stop - i + extra) i =
        boxScanF data p emit sub stop (stop - i) i) := by
  refine ⟨?_, ?_, ?_, ?_⟩
  · intro h; rw [nextBoxCursor, if_neg (by omega)]
  · intro h; rw [nextBoxCursor, if_pos h]; omega
  · exact boxScanStepsF_le data stop (stop - i) i (Nat.le_refl _)
  · intro p emit sub extra
    exact boxScanF_stable data p emit sub stop (stop - i + extra) (stop - i) i
      (by omega) (Nat.le_refl _)

theorem findBox_termination_witness :
    1 < readUint32 [0, 0, 0, 8, 109, 111, 111, 102] 0 ∧
      0 + 2 ≤ nextBoxCursor [0, 0, 0, 8, 109, 111, 111, 102] 0 8 ∧
      boxScanSteps [0, 0, 0, 8, 109, 111, 111, 102] 0 8 ≤ 8 - 0 :=
  ⟨by decide,
    (findBox_termination [0, 0, 0, 8, 109, 111, 111, 102] 0 8).2.1 (by decide),
    (findBox_termination [0, 0, 0, 8, 109, 111, 111, 102] 0 8).2.2.1⟩

/-- C9: for every buffer, every in-bounds offset (offset + 3 < buffer
length), and every value, reading a 32-bit big-endian unsigned integer at
that offset immediately after writing value there returns value mod 2^32. -/
theorem readUint32_after_writeUint32 (buffer : List Nat) (offset : Nat) (value : Int)
    (h : offset + 3 < buffer.length) :
    (readUint32 (writeUint32 buffer offset value) offset : Int) = value % 4294967296 := by
  rw [readUint32_writeUint32 buffer offset value h]; omega

theorem readUint32_after_writeUint32_witness :
    (0 : Nat) + 3 < ([0, 0, 0, 0, 0] : List Nat).length ∧
      (readUint32 (writeUint32 [0, 0, 0, 0, 0] 0 (-2)) 0 : Int) = (-2) % 4294967296 :=
  ⟨by decide, readUint32_after_writeUint32 [0, 0, 0, 0, 0] 0 (-2) (by decide)⟩

/-- Well-formedness of the box structure over the range i..stop, stated from
the spec's invariant (a second definition used to express the corrected C2
claim): every box header has a size field that either is at most 1 (the box
extends to the container end, which must leave room for the 8-byte header) or
is at least 8 and stays inside the container; recursively for the payload of
every box and for the following siblings. Fuelled for computability. -/
def boxesWFF (data : List Nat) : Nat → Nat → Nat → Bool
  | 0, _, _ => true
  | fuel + 1, i, stop =>
    if i < stop then
      decide ((8 ≤ readUint32 data i ∧ i + readUint32 data i ≤ stop) ∨
              (readUint32 data i ≤ 1 ∧ i + 8 ≤ stop)) &&
      boxesWFF data fuel (i + 8) (nextBoxCursor data i stop) &&
      boxesWFF data fuel (nextBoxCursor data i stop) stop
    else true

def boxesWF (data : List Nat) (i stop : Nat) : Bool := boxesWFF data (stop - i) i stop

theorem nextBoxCursor_of_wfCond (data : List Nat) (i stop : Nat)
    (hc : (8 ≤ readUint32 data i ∧ i + readUint32 data i ≤ stop) ∨
      (readUint32 data i ≤ 1 ∧ i + 8 ≤ stop)) :
    i + 8 ≤ nextBoxCursor data i stop ∧ nextBoxCursor data i stop ≤ stop := by
  unfold nextBoxCursor; split <;> omega

theorem boxesWFF_stable (data : List Nat) :
    ∀ f1 f2 i stop, stop - i ≤ f1 → stop - i ≤ f2 →
      boxesWFF data f1 i stop = boxesWFF data f2 i stop := by
  intro f1
  induction f1 using Nat.strong_induction_on with
  | _ f1 ih =>
    intro f2 i stop h1 h2
    match f1, f2 with
    | 0, 0 => rfl
    | 0, g2 + 1 =>
      have : ¬ i < stop := by omega
      simp [boxesWFF, this]
    | g1 + 1, 0 =>
      have : ¬ i < stop := by omega
      simp [boxesWFF, this]
    | g1 + 1, g2 + 1 =>
      show boxesWFF data (g1 + 1) i stop = boxesWFF data (g2 + 1) i stop
      rw [boxesWFF, boxesWFF]
      by_cases h : i < stop
      · simp only [if_pos h]
        by_cases hc : (8 ≤ readUint32 data i ∧ i + readUint32 data i ≤ stop) ∨
            (readUint32 data i ≤ 1 ∧ i + 8 ≤ stop)
        · obtain ⟨hlo, hhi⟩ := nextBoxCursor_of_wfCond data i stop hc
          rw [ih g1 (by omega) g2 (i + 8) (nextBoxCursor data i stop) (by omega) (by omega),
            ih g1 (by omega) g2 (nextBoxCursor data i stop) stop (by omega) (by omega)]
        · simp [hc]
      · simp [h]

/-- One-step unfolding of boxesWF. -/
theorem boxesWF_unfold (data : List Nat) (i stop : Nat) :
    boxesWF data i stop =
      if i < stop then
        decide ((8 ≤ readUint32 data i ∧ i + readUint32 data i ≤ stop) ∨
                (readUint32 data i ≤ 1 ∧ i + 8 ≤ stop)) &&
        boxesWF data (i + 8) (nextBoxCursor data i stop) &&
        boxesWF data (nextBoxCursor data i stop) stop
      else true := by
  by_cases h : i < stop
  · have hs : stop - i = (stop - i - 1) + 1 := by omega
    rw [boxesWF, hs, boxesWFF]
    simp only [if_pos h]
    by_cases hc : (8 ≤ readUint32 data i ∧ i + readUint32 data i ≤ stop) ∨
        (readUint32 data i ≤ 1 ∧ i + 8 ≤ stop)
    · obtain ⟨hlo, hhi⟩ := nextBoxCursor_of_wfCond data i stop hc
      rw [boxesWFF_stable data (stop - i - 1) (nextBoxCursor data i stop - (i + 8))
          (i + 8) (nextBoxCursor data i stop) (by omega) (Nat.le_refl _),
        boxesWFF_stable data (stop - i - 1) (stop - nextBoxCursor data i stop)
          (nextBoxCursor data i stop) stop (by omega) (Nat.le_refl _)]
      rfl
    · simp [hc]
  · have hs : stop - i = 0 := by omega
    rw [boxesWF, hs, boxesWFF, if_neg h]

theorem findBox_wf_bounds :
    ∀ (path : List (List Nat)) (data : List Nat) (i stop : Nat),
      boxesWF data i stop = true →
      ∀ v ∈ findBox data i stop path, i ≤ v.start ∧ v.start ≤ v.stop ∧ v.stop ≤ stop := by
  intro path
  induction path with
  | nil => intro data i stop _ v hv; simp [findBox] at hv
  | cons p rest ih =>
    intro data i stop
    suffices H : ∀ n i, stop - i ≤ n → boxesWF data i stop = true →
        ∀ v ∈ findBox data i stop (p :: rest),
          i ≤ v.start ∧ v.start ≤ v.stop ∧ v.stop ≤ stop by
      intro h v hv; exact H (stop - i) i (Nat.le_refl _) h v hv
    intro n
    induction n with
    | zero =>
      intro i hn hwf v hv
      rw [findBox_cons_unfold, if_neg (by omega)] at hv
      simp at hv
    | succ n ihn =>
      intro i hn hwf v hv
      by_cases hlt : i < stop
      · rw [findBox_cons_unfold, if_pos hlt] at hv
        rw [boxesWF_unfold, if_pos hlt] at hwf
        simp only [Bool.and_eq_true, decide_eq_true_eq] at hwf
        obtain ⟨⟨hc, hwfChild⟩, hwfSib⟩ := hwf
        obtain ⟨hlo, hhi⟩ := nextBoxCursor_of_wfCond data i stop hc
        rcases List.mem_append.mp hv with hv1 | hv2
        · by_cases ht : (data.drop (i + 4)).take 4 = p
          · rw [if_pos ht] at hv1
            by_cases he : rest.isEmpty
            · rw [if_pos he] at hv1
              simp only [List.mem_singleton] at hv1
              subst hv1
              dsimp only
              exact ⟨by omega, by omega, hhi⟩
            · rw [if_neg he] at hv1
              obtain ⟨h1, h2, h3⟩ := ih data (i + 8) (nextBoxCursor data i stop) hwfChild v hv1
              exact ⟨by omega, h2, by omega⟩
          · rw [if_neg ht] at hv1
            simp at hv1
        · have hcur := nextBoxCursor_gt data i stop hlt
          obtain ⟨h1, h2, h3⟩ := ihn (nextBoxCursor data i stop) (by omega) hwfSib v hv2
          exact ⟨by omega, h2, h3⟩
      · rw [findBox_cons_unfold, if_neg hlt] at hv
        simp at hv

/-- C2 (amended): for every buffer whose box structure over the searched
range is well formed (every size field either at most 1, or at least 8 and
within its container, recursively), every view returned by findBox at any
recursion depth satisfies start less-or-equal end, and its end never exceeds
the enclosing container's end (the buffer length at top level). On inputs
whose size field overstates the box's actual extent the invariant fails, see
the counterexample. -/
theorem findBox_bounds (data : List Nat) (path : List (List Nat)) (i stop : Nat)
    (hwf : boxesWF data i stop = true) :
    ∀ v ∈ findBox data i stop path, v.start ≤ v.stop ∧ v.stop ≤ stop := by
  intro v hv
  obtain ⟨_, h2, h3⟩ := findBox_wf_bounds path data i stop hwf v hv
  exact ⟨h2, h3⟩

theorem findBox_bounds_witness :
    boxesWF [0, 0, 0, 16, 109, 111, 111, 102, 0, 0, 0, 8, 116, 114, 97, 102] 0 16 = true ∧
      ∀ v ∈ findBox [0, 0, 0, 16, 109, 111, 111, 102, 0, 0, 0, 8, 116, 114, 97, 102] 0 16
        [[109, 111, 111, 102], [116, 114, 97, 102]], v.start ≤ v.stop ∧ v.stop ≤ 16 :=
  ⟨by decide,
    findBox_bounds [0, 0, 0, 16, 109, 111, 111, 102, 0, 0, 0, 8, 116, 114, 97, 102]
      [[109, 111, 111, 102], [116, 114, 97, 102]] 0 16 (by decide)⟩

/-- C2 fails as stated: a box whose size field is 2 (shorter than its own
8-byte header) yields a view with start 8 and end 2, violating start ≤ end;
the claim is false on this input and path. -/
theorem findBox_bounds_counterexample :
    ¬ ∀ v ∈ findBox [0, 0, 0, 2, 97, 98, 99, 100, 0, 0] 0 10 [[97, 98, 99, 100]],
        v.start ≤ v.stop ∧ v.stop ≤ 10 := by
  decide

/-- Four-character box type codes, as byte lists (ASCII). -/
def moofT : List Nat := [109, 111, 111, 102]

def moovT : List Nat := [109, 111, 111, 118]

def trafT : List Nat := [116, 114, 97, 102]

def tfhdT : List Nat := [116, 102, 104, 100]

def tfdtT : List Nat := [116, 102, 100, 116]

def sidxT : List Nat := [115, 105, 100, 120]

def emsgT : List Nat := [101, 109, 115, 103]

def trunT : List Nat := [116, 114, 117, 110]

/-- Modelled from the spec: sliceUint8 (imported from src/utils/typed-array,
a file not present in the reviewed sources) copies the byte range
(start, end) out of a buffer, clamping to the buffer length, like
Uint8Array.prototype.slice. -/
def sliceUint8 (data : List Nat) (start stop : Nat) : List Nat :=
  (data.drop start).take (stop - start)

/-- Modelled from the spec: the one-argument form of sliceUint8, copying from
start to the end of the buffer. -/
def sliceUint8From (data : List Nat) (start : Nat) : List Nat := data.drop start

/-- SegmentedRange (mp4-tools.ts:645). -/
structure SegmentedRange where
  valid : Option (List Nat)
  remainder : Option (List Nat)
  deriving DecidableEq

/-- segmentValidRange (mp4-tools.ts:625-643). The source's falsiness test on
the moofs array is unreachable (findBox always returns an array), as is the
getLast fallback (guarded by length at least 2). -/
def segmentValidRange (data : List Nat) : SegmentedRange :=
  let moofs := findBoxTop data [moofT]
  if moofs.length < 2 then { valid := none, remainder := some data }
  else
    match moofs.getLast? with
    | some last =>
      { valid := some (sliceUint8 data 0 (last.start - 8)),
        remainder := some (sliceUint8From data (last.start - 8)) }
    | none => { valid := none, remainder := some data }

/-- C7: with fewer than two moof boxes, valid is none and the remainder is
the whole buffer; with two or more, valid is exactly the bytes strictly
before the last moof's 8-byte header (findBox reports start 8 bytes past the
header) and the remainder runs from the header to the end, so that valid
concatenated with remainder reconstructs the input. -/
theorem segmentValidRange_spec (data : List Nat) :
    ((findBoxTop data [moofT]).length < 2 →
      segmentValidRange data = { valid := none, remainder := some data }) ∧
    (∀ last, 2 ≤ (findBoxTop data [moofT]).length →
      (findBoxTop data [moofT]).getLast? = some last →
      (segmentValidRange data).valid = some (data.take (last.start - 8)) ∧
      (segmentValidRange data).remainder = some (data.drop (last.start - 8)) ∧
      data.take (last.start - 8) ++ data.drop (last.start - 8) = data) := by
  constructor
  · intro h
    rw [segmentValidRange]
    simp only [if_pos h]
  · intro last h hlast
    rw [segmentValidRange]
    simp only [if_neg (by omega : ¬ (findBoxTop data [moofT]).length < 2), hlast]
    refine ⟨?_, ?_, List.take_append_drop _ _⟩
    · simp [sliceUint8]
    · simp [sliceUint8From]

theorem segmentValidRange_spec_witness :
    (segmentValidRange
        [0, 0, 0, 8, 109, 111, 111, 102, 0, 0, 0, 8, 109, 111, 111, 102]).valid =
      some [0, 0, 0, 8, 109, 111, 111, 102] ∧
    (segmentValidRange
        [0, 0, 0, 8, 109, 111, 111, 102, 0, 0, 0, 8, 109, 111, 111, 102]).remainder =
      some [0, 0, 0, 8, 109, 111, 111, 102] := by
  have h := (segmentValidRange_spec
    [0, 0, 0, 8, 109, 111, 111, 102, 0, 0, 0, 8, 109, 111, 111, 102]).2
    ⟨[0, 0, 0, 8, 109, 111, 111, 102, 0, 0, 0, 8, 109, 111, 111, 102], 16, 16⟩
    (by decide) (by decide)
  exact ⟨h.1.trans (by decide), h.2.1.trans (by decide)⟩

/-- The scan loop of discardEmulationPreventionBytes (mp4-tools.ts:1278-1285):
starting from the given index, record the position of the 0x03 byte of each
00 00 03 triple and advance by 2, otherwise advance by 1, while
i < length - 2. Fuelled for computability. -/
def epbScanF (data : List Nat) : Nat → Nat → List Nat
  | 0, _ => []
  | fuel + 1, i =>
    if i < data.length - 2 then
      if data.getD i 0 = 0 ∧ data.getD (i + 1) 0 = 0 ∧ data.getD (i + 2) 0 = 3 then
        (i + 2) :: epbScanF data fuel (i + 2)
      else
        epbScanF data fuel (i + 1)
    else []

def epbScan (data : List Nat) (i : Nat) : List Nat := epbScanF data (data.length - 2 - i) i

theorem epbScanF_stable (data : List Nat) :
    ∀ f1 f2 i, data.length - 2 - i ≤ f1 → data.length - 2 - i ≤ f2 →
      epbScanF data f1 i = epbScanF data f2 i := by
  intro f1
  induction f1 using Nat.strong_induction_on with
  | _ f1 ih =>
    intro f2 i h1 h2
    match f1, f2 with
    | 0, 0 => rfl
    | 0, g2 + 1 =>
      have : ¬ i < data.length - 2 := by omega
      simp [epbScanF, this]
    | g1 + 1, 0 =>
      have : ¬ i < data.length - 2 := by omega
      simp [epbScanF, this]
    | g1 + 1, g2 + 1 =>
      show epbScanF data (g1 + 1) i = epbScanF data (g2 + 1) i
      rw [epbScanF, epbScanF]
      by_cases h : i < data.length - 2
      · simp only [if_pos h]
        by_cases ht : data.getD i 0 = 0 ∧ data.getD (i + 1) 0 = 0 ∧ data.getD (i + 2) 0 = 3
        · rw [if_pos ht, if_pos ht, ih g1 (by omega) g2 (i + 2) (by omega) (by omega)]
        · rw [if_neg ht, if_neg ht, ih g1 (by omega) g2 (i + 1) (by omega) (by omega)]
      · simp [h]

/-- One-step unfolding of epbScan. -/
theorem epbScan_unfold (data : List Nat) (i : Nat) :
    epbScan data i =
      if i < data.length - 2 then
        if data.getD i 0 = 0 ∧ data.getD (i + 1) 0 = 0 ∧ data.getD (i + 2) 0 = 3 then
          (i + 2) :: epbScan data (i + 2)
        else epbScan data (i + 1)
      else [] := by
  by_cases h : i < data.length - 2
  · have hs : data.length - 2 - i = (data.length - 2 - i - 1) + 1 := by omega
    rw [epbScan, hs, epbScanF]
    simp only [if_pos h]
    by_cases ht : data.getD i 0 = 0 ∧ data.getD (i + 1) 0 = 0 ∧ data.getD (i + 2) 0 = 3
    · rw [if_pos ht, if_pos ht,
        epbScanF_stable data (data.length - 2 - i - 1) (data.length - 2 - (i + 2)) (i + 2)
          (by omega) (Nat.le_refl _)]
      rfl
    · rw [if_neg ht, if_neg ht,
        epbScanF_stable data (data.length - 2 - i - 1) (data.length - 2 - (i + 1)) (i + 1)
          (by omega) (Nat.le_refl _)]
      rfl
  · have hs : data.length - 2 - i = 0 := by omega
    rw [epbScan, hs, epbScanF, if_neg h]

/-- The copy loop of discardEmulationPreventionBytes (mp4-tools.ts:1294-1306):
emit the required number of bytes; whenever the source cursor reaches the
front of the remaining emulation-prevention positions, skip that source byte
and pop the position. -/
def epbCopy (data : List Nat) : Nat → Nat → List Nat → List Nat
  | 0, _, _ => []
  | n + 1, src, ps =>
    match ps with
    | p :: rest =>
      if src = p then data.getD (src + 1) 0 :: epbCopy data n (src + 2) rest
      else data.getD src 0 :: epbCopy data n (src + 1) (p :: rest)
    | [] => data.getD src 0 :: epbCopy data n (src + 1) []

/-- discardEmulationPreventionBytes (mp4-tools.ts:1272-1309). -/
def discardEmulationPreventionBytes (data : List Nat) : List Nat :=
  let positions := epbScan data 1
  if positions.length = 0 then data
  else epbCopy data (data.length - positions.length) 0 positions

/-- Invariant of the scanned position list: each position is at least the
running lower bound, in range, and successive positions are at least 2
apart. -/
def PosInv (data : List Nat) : Nat → List Nat → Prop
  | _, [] => True
  | lb, p :: rest => lb ≤ p ∧ p < data.length ∧ PosInv data (p + 2) rest

theorem posInv_weaken (data : List Nat) (lb lb' : Nat) (ps : List Nat)
    (h : PosInv data lb ps) (hle : lb' ≤ lb) : PosInv data lb' ps := by
  cases ps with
  | nil => trivial
  | cons p rest =>
    simp only [PosInv] at h ⊢
    exact ⟨by omega, h.2.1, h.2.2⟩

theorem posInv_mem_ge (data : List Nat) :
    ∀ (ps : List Nat) (lb : Nat), PosInv data lb ps → ∀ q ∈ ps, lb ≤ q := by
  intro ps
  induction ps with
  | nil => intro lb _ q hq; simp at hq
  | cons p rest ih =>
    intro lb h q hq
    simp only [PosInv] at h
    rcases List.mem_cons.mp hq with rfl | hq'
    · exact h.1
    · have := ih (p + 2) h.2.2 q hq'
      omega

theorem posInv_length_bound (data : List Nat) :
    ∀ (ps : List Nat) (lb : Nat), PosInv data lb ps →
      2 * ps.length ≤ data.length - lb + 1 := by
  intro ps
  induction ps with
  | nil => intro lb _; simp
  | cons p rest ih =>
    intro lb h
    simp only [PosInv] at h
    have := ih (p + 2) h.2.2
    have hp := h.2.1
    have hlb := h.1
    simp only [List.length_cons]
    omega

theorem epbScan_posInv (data : List Nat) :
    ∀ n i, data.length - 2 - i ≤ n → PosInv data (i + 2) (epbScan data i) := by
  intro n
  induction n with
  | zero =>
    intro i h
    rw [epbScan_unfold, if_neg (by omega)]
    trivial
  | succ n ih =>
    intro i h
    rw [epbScan_unfold]
    by_cases hw : i < data.length - 2
    · rw [if_pos hw]
      by_cases ht : data.getD i 0 = 0 ∧ data.getD (i + 1) 0 = 0 ∧ data.getD (i + 2) 0 = 3
      · rw [if_pos ht]
        exact ⟨Nat.le_refl _, by omega, ih (i + 2) (by omega)⟩
      · rw [if_neg ht]
        exact posInv_weaken data (i + 3) (i + 2) _ (ih (i + 1) (by omega)) (by omega)
    · rw [if_neg hw]; trivial

/-- Skipping a list of positions, indices counted from src: the bytes of data
from src on, with the bytes whose index lies in ps removed. Fuelled with the
exact remaining length. -/
def removeFromF (data : List Nat) (ps : List Nat) : Nat → Nat → List Nat
  | 0, _ => []
  | fuel + 1, src =>
    if src < data.length then
      if src ∈ ps then removeFromF data ps fuel (src + 1)
      else data.getD src 0 :: removeFromF data ps fuel (src + 1)
    else []

def removeFrom (data : List Nat) (ps : List Nat) (src : Nat) : List Nat :=
  removeFromF data ps (data.length - src) src

theorem removeFrom_unfold (data : List Nat) (ps : List Nat) (src : Nat) :
    removeFrom data ps src =
      if src < data.length then
        (if src ∈ ps then removeFrom data ps (src + 1)
         else data.getD src 0 :: removeFrom data ps (src + 1))
      else [] := by
  by_cases h : src < data.length
  · have hs : data.length - src = (data.length - (src + 1)) + 1 := by omega
    rw [removeFrom, hs, removeFromF]
    simp only [if_pos h]
    rfl
  · have hs : data.length - src = 0 := by omega
    rw [removeFrom, hs, if_neg h]
    rfl

theorem removeFrom_nil (data : List Nat) :
    ∀ n src, data.length - src ≤ n → removeFrom data [] src = data.drop src := by
  intro n
  induction n with
  | zero =>
    intro src h
    rw [removeFrom_unfold, if_neg (by omega), List.drop_eq_nil_of_le (by omega)]
  | succ n ih =>
    intro src h
    by_cases hs : src < data.length
    · rw [removeFrom_unfold, if_pos hs, if_neg (by simp),
        List.drop_eq_getElem_cons hs, ih (src + 1) (by omega)]
      congr 1
      simp [List.getD_eq_getElem?_getD, List.getElem?_eq_getElem hs]
    · rw [removeFrom_unfold, if_neg hs, List.drop_eq_nil_of_le (by omega)]

theorem removeFrom_cons_lt (data : List Nat) (p : Nat) (rest : List Nat) :
    ∀ n src, data.length - src ≤ n → p < src →
      removeFrom data (p :: rest) src = removeFrom data rest src := by
  intro n
  induction n with
  | zero =>
    intro src h hp
    conv_lhs => rw [removeFrom_unfold]
    conv_rhs => rw [removeFrom_unfold]
    rw [if_neg (by omega : ¬ src < data.length), if_neg (by omega : ¬ src < data.length)]
  | succ n ih =>
    intro src h hp
    by_cases hs : src < data.length
    · conv_lhs => rw [removeFrom_unfold]
      conv_rhs => rw [removeFrom_unfold]
      rw [if_pos hs, if_pos hs]
      have hmem : src ∈ p :: rest ↔ src ∈ rest := by
        simp only [List.mem_cons]
        constructor
        · rintro (rfl | h2)
          · omega
          · exact h2
        · intro h2; exact Or.inr h2
      by_cases hm : src ∈ rest
      · rw [if_pos (hmem.mpr hm), if_pos hm, ih (src + 1) (by omega) (by omega)]
      · rw [if_neg (fun hh => hm (hmem.mp hh)), if_neg hm,
          ih (src + 1) (by omega) (by omega)]
    · conv_lhs => rw [removeFrom_unfold]
      conv_rhs => rw [removeFrom_unfold]
      rw [if_neg hs, if_neg hs]

/-- The copy loop equals position-filtering when the positions satisfy the
scan invariant and the output length is the source length minus the number of
removed positions. -/
theorem epbCopy_eq_removeFrom (data : List Nat) :
    ∀ (n src : Nat) (ps : List Nat), PosInv data src ps →
      n = data.length - src - ps.length →
      epbCopy data n src ps = removeFrom data ps src := by
  intro n
  induction n with
  | zero =>
    intro src ps hinv hn
    rcases ps with _ | ⟨p, rest⟩
    · rw [epbCopy, removeFrom_unfold, if_neg (by simp at hn; omega)]
    · obtain ⟨hlb, hplen, hrest⟩ := hinv
      have hbound := posInv_length_bound data rest (p + 2) hrest
      simp only [List.length_cons] at hn
      have hp : p = src := by omega
      have hrest0 : rest = [] := by
        have : rest.length = 0 := by omega
        exact List.length_eq_zero.mp this
      subst hp hrest0
      rw [epbCopy, removeFrom_unfold, if_pos (by omega), if_pos (by simp),
        removeFrom_unfold, if_neg (by omega)]
  | succ n ih =>
    intro src ps hinv hn
    have hsrc : src < data.length := by
      rcases ps with _ | ⟨p, rest⟩ <;> simp at hn <;> omega
    rcases ps with _ | ⟨p, rest⟩
    · rw [epbCopy, removeFrom_unfold, if_pos hsrc, if_neg (by simp),
        ih (src + 1) [] trivial (by simp at hn ⊢; omega)]
    · obtain ⟨hlb, hplen, hrest⟩ := hinv
      simp only [List.length_cons] at hn
      by_cases hp : src = p
      · subst hp
        have hlen2 : src + 1 < data.length := by
          have hbound := posInv_length_bound data rest (src + 2) hrest
          omega
        rw [epbCopy, if_pos rfl, removeFrom_unfold, if_pos hsrc, if_pos (by simp),
          removeFrom_cons_lt data src rest (data.length - (src + 1)) (src + 1)
            (Nat.le_refl _) (by omega),
          removeFrom_unfold, if_pos hlen2,
          if_neg (fun hm => by have := posInv_mem_ge data rest (src + 2) hrest _ hm; omega),
          ih (src + 2) rest hrest (by omega)]
      · have hlt : src < p := by omega
        rw [epbCopy, if_neg hp, removeFrom_unfold, if_pos hsrc]
        rw [if_neg (fun hm => by
          rcases List.mem_cons.mp hm with h1 | h2
          · omega
          · have := posInv_mem_ge data rest (p + 2) hrest _ h2; omega)]
        rw [ih (src + 1) (p :: rest) ⟨by omega, hplen, hrest⟩ (by simp; omega)]

/-- Second definition, from the claim's words: scanning left to right, every
00 00 03 triple collapses to 00 00 by dropping the 03 byte; all other bytes
are preserved in order. -/
def stripTriples : List Nat → List Nat
  | [] => []
  | [a] => [a]
  | [a, b] => [a, b]
  | a :: b :: c :: rest =>
    if a = 0 ∧ b = 0 ∧ c = 3 then 0 :: 0 :: stripTriples rest
    else a :: stripTriples (b :: c :: rest)

theorem stripTriples_cons3 (a b c : Nat) (t : List Nat) :
    stripTriples (a :: b :: c :: t) =
      if a = 0 ∧ b = 0 ∧ c = 3 then 0 :: 0 :: stripTriples t
      else a :: stripTriples (b :: c :: t) := rfl

theorem stripTriples_short (l : List Nat) (h : l.length ≤ 2) : stripTriples l = l := by
  match l with
  | [] => rfl
  | [a] => rfl
  | [a, b] => rfl
  | a :: b :: c :: rest => simp at h

theorem getD_eq_getElem_of_lt (l : List Nat) (i : Nat) (h : i < l.length) :
    l.getD i 0 = l[i] := by
  simp [List.getD_eq_getElem?_getD, List.getElem?_eq_getElem h]

theorem drop_eq_getD_cons (l : List Nat) (i : Nat) (h : i < l.length) :
    l.drop i = l.getD i 0 :: l.drop (i + 1) := by
  rw [List.drop_eq_getElem_cons h, getD_eq_getElem_of_lt l i h]

theorem epbScan_skip (data : List Nat) (i : Nat) (h3 : data.getD (i + 2) 0 = 3) :
    epbScan data (i + 2) = epbScan data (i + 3) := by
  by_cases hw : i + 2 < data.length - 2
  · rw [epbScan_unfold, if_pos hw, if_neg (fun hc => by rw [h3] at hc; omega)]
  · rw [epbScan_unfold, if_neg hw, epbScan_unfold, if_neg (by omega)]

/-- Removing the scanned positions from index i onward computes the
spec-style left-to-right triple collapse of the suffix. -/
theorem removeFrom_scan_eq_strip (data : List Nat) :
    ∀ n i, data.length - i ≤ n →
      removeFrom data (epbScan data i) i = stripTriples (data.drop i) := by
  intro n
  induction n with
  | zero =>
    intro i h
    rw [removeFrom_unfold, if_neg (by omega), List.drop_eq_nil_of_le (by omega)]
    rfl
  | succ n ih =>
    intro i h
    by_cases hi : i < data.length
    · by_cases hw : i < data.length - 2
      · have hd0 : data.drop i = data.getD i 0 :: data.drop (i + 1) :=
          drop_eq_getD_cons data i hi
        have hd1 : data.drop (i + 1) = data.getD (i + 1) 0 :: data.drop (i + 2) :=
          drop_eq_getD_cons data (i + 1) (by omega)
        have hd2 : data.drop (i + 2) = data.getD (i + 2) 0 :: data.drop (i + 3) :=
          drop_eq_getD_cons data (i + 2) (by omega)
        by_cases ht : data.getD i 0 = 0 ∧ data.getD (i + 1) 0 = 0 ∧ data.getD (i + 2) 0 = 3
        · rw [epbScan_unfold, if_pos hw, if_pos ht]
          have hinv : PosInv data (i + 4) (epbScan data (i + 2)) :=
            epbScan_posInv data (data.length - 2 - (i + 2)) (i + 2) (Nat.le_refl _)
          rw [removeFrom_unfold, if_pos hi, if_neg (fun hm => by
            rcases List.mem_cons.mp hm with h1 | h2
            · omega
            · have := posInv_mem_ge data _ _ hinv _ h2; omega)]
          rw [removeFrom_unfold, if_pos (by omega), if_neg (fun hm => by
            rcases List.mem_cons.mp hm with h1 | h2
            · omega
            · have := posInv_mem_ge data _ _ hinv _ h2; omega)]
          rw [removeFrom_unfold, if_pos (by omega), if_pos (by simp)]
          rw [removeFrom_cons_lt data (i + 2) _ (data.length - (i + 3)) (i + 3)
            (Nat.le_refl _) (by omega)]
          rw [epbScan_skip data i ht.2.2, ih (i + 3) (by omega)]
          rw [hd0, hd1, hd2, ht.1, ht.2.1, ht.2.2]
          conv_rhs => rw [stripTriples_cons3]
          rw [if_pos ⟨rfl, rfl, rfl⟩]
        · rw [epbScan_unfold, if_pos hw, if_neg ht]
          have hinv : PosInv data (i + 3) (epbScan data (i + 1)) :=
            epbScan_posInv data (data.length - 2 - (i + 1)) (i + 1) (Nat.le_refl _)
          rw [removeFrom_unfold, if_pos hi, if_neg (fun hm => by
            have := posInv_mem_ge data _ _ hinv _ hm; omega)]
          rw [ih (i + 1) (by omega)]
          rw [hd0, hd1, hd2]
          conv_rhs => rw [stripTriples_cons3]
          rw [if_neg ht]
      · -- fewer than 3 bytes remain: the scan is empty and stripping is the
        -- identity on a suffix of length at most 2
        rw [epbScan_unfold, if_neg hw,
          removeFrom_nil data (data.length - i) i (Nat.le_refl _),
          stripTriples_short _ (by simp; omega)]
    · rw [removeFrom_unfold, if_neg hi, List.drop_eq_nil_of_le (by omega)]
      rfl

/-- C1 (amended): the scan for emulation-prevention triples starts at index
1, so a 00 00 03 triple beginning at index 0 is left intact; every triple
beginning at index 1 or later collapses to 00 00 by dropping the 03 byte,
with all other bytes preserved in order. Equivalently, on any nonempty input
the first byte is kept and the remainder undergoes the spec's left-to-right
triple collapse. -/
theorem discardEmulationPreventionBytes_strips (b : Nat) (data : List Nat) :
    discardEmulationPreventionBytes (b :: data) = b :: stripTriples data := by
  have hscan : removeFrom (b :: data) (epbScan (b :: data) 1) 1 = stripTriples data := by
    have := removeFrom_scan_eq_strip (b :: data) ((b :: data).length - 1) 1 (Nat.le_refl _)
    simpa using this
  have hinv : PosInv (b :: data) 3 (epbScan (b :: data) 1) :=
    epbScan_posInv (b :: data) ((b :: data).length - 2 - 1) 1 (Nat.le_refl _)
  rw [discardEmulationPreventionBytes]
  by_cases hps : (epbScan (b :: data) 1).length = 0
  · rw [if_pos hps]
    have hnil : epbScan (b :: data) 1 = [] := List.length_eq_zero.mp hps
    rw [hnil, removeFrom_nil (b :: data) ((b :: data).length - 1) 1 (Nat.le_refl _)] at hscan
    simp only [List.drop_one, List.tail_cons] at hscan
    rw [← hscan]
  · rw [if_neg hps]
    rw [epbCopy_eq_removeFrom (b :: data) ((b :: data).length - (epbScan (b :: data) 1).length)
      0 (epbScan (b :: data) 1) (posInv_weaken _ 3 0 _ hinv (by omega)) (by omega)]
    rw [removeFrom_unfold, if_pos (by simp), if_neg (fun hm => by
      have := posInv_mem_ge _ _ _ hinv _ hm; omega)]
    rw [hscan]
    rfl

/-- C1 fails as stated: the input 00 00 03 01 contains a 00 00 03 triple at
index 0, but the scan starts at index 1, so nothing is stripped and the
output is not 00 00 01. -/
theorem discardEmulationPreventionBytes_counterexample :
    discardEmulationPreventionBytes [0, 0, 3, 1] = [0, 0, 3, 1] ∧
      discardEmulationPreventionBytes [0, 0, 3, 1] ≠ [0, 0, 1] := by
  constructor <;> decide

/-- The Mp4BoxData branch of readUint16: the offset is relative to the view
start. -/
def readUint16V (b : Mp4BoxData) (offset : Nat) : Nat := readUint16 b.data (b.start + offset)

/-- The Mp4BoxData branch of readUint32: the offset is relative to the view
start. -/
def readUint32V (b : Mp4BoxData) (offset : Nat) : Nat := readUint32 b.data (b.start + offset)

/-- One sidx reference (mp4-tools.ts:255-263); the nested info object is
flattened into duration seconds and the start/end byte range (end may be
negative in JS when the reference size is zero, hence Int). -/
structure SidxReference where
  referenceSize : Nat
  subsegmentDuration : Nat
  duration : ℚ
  start : Int
  stop : Int
  deriving DecidableEq

/-- SidxInfo (mp4-tools.ts:187-194). -/
structure SidxInfo where
  earliestPresentationTime : Nat
  timescale : Nat
  version : Nat
  referencesCount : Nat
  references : List SidxReference
  moovEndOffset : Option Nat
  deriving DecidableEq

/-- The version byte of a sidx view: the source reads sidx.data[0], the first
byte of the whole backing buffer, not of the box payload. -/
def sidxVersion (sidx : Mp4BoxData) : Nat := sidx.data.getD 0 0

/-- View-relative index of the 16-bit reference count, following the
source's index bookkeeping (initial skip, timescale, unparsed
time/offset pair, reserved bytes). -/
def sidxCountIndex (sidx : Mp4BoxData) : Nat :=
  (if sidxVersion sidx = 0 then 8 else 16) + 4 + (if sidxVersion sidx = 0 then 8 else 16) + 2

/-- The reference loop of parseSegmentIndex (mp4-tools.ts:237-273): each
reference occupies 12 bytes (info word, subsegment duration, skipped SAP
word); a hierarchical reference (top bit of the info word) aborts the whole
parse with none. -/
def sidxRefLoop (sidx : Mp4BoxData) (timescale : Nat) :
    Nat → Nat → Int → Option (List SidxReference)
  | 0, _, _ => some []
  | n + 1, index, startByte =>
    let referenceInfo := readUint32V sidx index
    let referenceSize := referenceInfo % 2147483648
    let referenceType := referenceInfo / 2147483648
    if referenceType = 1 then none
    else
      let subsegmentDuration := readUint32V sidx (index + 4)
      (sidxRefLoop sidx timescale n (index + 12) (startByte + referenceSize)).map
        (fun rest =>
          { referenceSize := referenceSize,
            subsegmentDuration := subsegmentDuration,
            duration := (subsegmentDuration : ℚ) / (timescale : ℚ),
            start := startByte,
            stop := startByte + referenceSize - 1 } :: rest)

/-- parseSegmentIndex (mp4-tools.ts:196-283). -/
def parseSegmentIndex (initSegment : List Nat) : Option SidxInfo :=
  let moovEndOffset := ((findBoxTop initSegment [moovT]).head?).map (fun moov => moov.stop)
  match (findBoxTop initSegment [sidxT]).head? with
  | none => none
  | some sidx =>
    let timescale := readUint32V sidx (if sidxVersion sidx = 0 then 8 else 16)
    let referencesCount := readUint16V sidx (sidxCountIndex sidx)
    (sidxRefLoop sidx timescale referencesCount (sidxCountIndex sidx + 2)
        ((sidx.stop : Int) + 0)).map
      (fun references =>
        { earliestPresentationTime := 0, timescale := timescale,
          version := sidxVersion sidx, referencesCount := referencesCount,
          references := references, moovEndOffset := moovEndOffset })

theorem sidxRefLoop_none (sidx : Mp4BoxData) (timescale : Nat) :
    ∀ (n : Nat) (index : Nat) (startByte : Int),
      (∃ k < n, readUint32V sidx (index + 12 * k) / 2147483648 = 1) →
      sidxRefLoop sidx timescale n index startByte = none := by
  intro n
  induction n with
  | zero => rintro index startByte ⟨k, hk, _⟩; omega
  | succ n ih =>
    rintro index startByte ⟨k, hk, hh⟩
    rw [sidxRefLoop]
    by_cases h0 : readUint32V sidx index / 2147483648 = 1
    · rw [if_pos h0]
    · have hk0 : k ≠ 0 := by
        rintro rfl
        simp only [Nat.mul_zero, Nat.add_zero] at hh
        exact h0 hh
      obtain ⟨k', rfl⟩ : ∃ k', k = k' + 1 := ⟨k - 1, by omega⟩
      rw [if_neg h0]
      have harg : index + 12 * (k' + 1) = index + 12 + 12 * k' := by ring
      rw [harg] at hh
      rw [ih (index + 12) _ ⟨k', by omega, hh⟩]
      rfl

/-- C4: if the first sidx box contains any reference (among the declared
count) whose 32-bit info word has the top type bit set, parseSegmentIndex
yields none for the whole box, never a partially populated reference list —
even when the other references are flat. -/
theorem parseSegmentIndex_hierarchical_aborts (initSegment : List Nat)
    (sidx : Mp4BoxData) (k : Nat)
    (hsidx : (findBoxTop initSegment [sidxT]).head? = some sidx)
    (hk : k < readUint16V sidx (sidxCountIndex sidx))
    (hhier : readUint32V sidx (sidxCountIndex sidx + 2 + 12 * k) / 2147483648 = 1) :
    parseSegmentIndex initSegment = none := by
  rw [parseSegmentIndex, hsidx]
  dsimp only
  rw [sidxRefLoop_none sidx _ _ _ _ ⟨k, hk, hhier⟩]
  rfl

theorem parseSegmentIndex_hierarchical_aborts_witness :
    parseSegmentIndex
      [0, 0, 0, 44, 115, 105, 100, 120, 0, 0, 0, 0, 0, 0, 0, 0, 0, 0, 0, 90,
       0, 0, 0, 0, 0, 0, 0, 0, 0, 0, 0, 1, 128, 0, 0, 0, 0, 0, 0, 45, 0, 0, 0, 0] = none :=
  parseSegmentIndex_hierarchical_aborts
    [0, 0, 0, 44, 115, 105, 100, 120, 0, 0, 0, 0, 0, 0, 0, 0, 0, 0, 0, 90,
     0, 0, 0, 0, 0, 0, 0, 0, 0, 0, 0, 1, 128, 0, 0, 0, 0, 0, 0, 45, 0, 0, 0, 0]
    ⟨[0, 0, 0, 44, 115, 105, 100, 120, 0, 0, 0, 0, 0, 0, 0, 0, 0, 0, 0, 90,
      0, 0, 0, 0, 0, 0, 0, 0, 0, 0, 0, 1, 128, 0, 0, 0, 0, 0, 0, 45, 0, 0, 0, 0], 8, 44⟩
    0 (by decide) (by decide) (by decide)

/-- DataView.getUint8: a RangeError outside the view is none. -/
def getUint8? (data : List Nat) (offset : Nat) : Option Nat :=
  if offset < data.length then some (data.getD offset 0) else none

/-- DataView.getUint32 (big-endian): a RangeError outside the view is none. -/
def getUint32? (data : List Nat) (offset : Nat) : Option Nat :=
  if offset + 4 ≤ data.length then
    some (data.getD offset 0 * 16777216 + data.getD (offset + 1) 0 * 65536 +
      data.getD (offset + 2) 0 * 256 + data.getD (offset + 3) 0)
  else none

/-- DataView.getBigUint64 followed by Number(...): modelled exactly as the
weighted byte sum; a RangeError outside the view is none. -/
def getUint64? (data : List Nat) (offset : Nat) : Option Nat :=
  if offset + 8 ≤ data.length then
    some (data.getD offset 0 * 72057594037927936 +
      data.getD (offset + 1) 0 * 281474976710656 +
      data.getD (offset + 2) 0 * 1099511627776 +
      data.getD (offset + 3) 0 * 4294967296 +
      data.getD (offset + 4) 0 * 16777216 +
      data.getD (offset + 5) 0 * 65536 +
      data.getD (offset + 6) 0 * 256 +
      data.getD (offset + 7) 0)
  else none

/-- readNullTerminatedString (mp4-tools.ts:24-33), as the byte list of the
string: scan from offset until a zero byte or the end of the buffer
(String.fromCharCode(undefined) is the NUL character, so the end of the
buffer also stops the loop). -/
def readNullTerminatedString (buffer : List Nat) (offset : Nat) : List Nat :=
  (buffer.drop offset).takeWhile (fun b => b ≠ 0)

def strBytes (s : String) : List Nat := s.data.map Char.toNat

/-- ID3_SCHEME_ID_URIS (mp4-tools.ts:15-18). -/
def ID3_SCHEME_ID_URIS : List (List Nat) :=
  [strBytes "https://aomedia.org/emsg/ID3",
   strBytes "https://developer.apple.com/streaming/emsg-id3"]

/-- One parsed emsg record (mp4-tools.ts:171-180). pts and dts are both the
presentation time; duration is none for the 0xffffffff sentinel. -/
structure EmsgRecord where
  timescale : Nat
  pts : Nat
  dts : Nat
  duration : Option Nat
  id : Nat
  schemeIdUri : List Nat
  value : List Nat
  data : List Nat
  deriving DecidableEq

/-- The per-emsg callback of parseId3TrackSamples (mp4-tools.ts:135-183).
Returning undefined (version not 1, scheme not allow-listed) and a caught
exception (out-of-range DataView read) are both none. The source performs
the four fixed-width reads sequentially; a pure 4-way match is equivalent
since each read is side-effect free. -/
def parseEmsgBox (emsg : Mp4BoxData) : Option EmsgRecord :=
  let bytes := (emsg.data.drop emsg.start).take (emsg.stop - emsg.start)
  match getUint8? bytes 0 with
  | none => none
  | some version =>
    if version ≠ 1 then none
    else
      match getUint32? bytes 4, getUint64? bytes 8, getUint32? bytes 16, getUint32? bytes 20 with
      | some timescale, some presentationTime, some eventDuration, some id =>
        let schemeIdUri := readNullTerminatedString bytes 24
        if schemeIdUri ∈ ID3_SCHEME_ID_URIS then
          let value := readNullTerminatedString bytes (24 + schemeIdUri.length + 1)
          some { timescale := timescale, pts := presentationTime, dts := presentationTime,
                 duration := if eventDuration ≠ 4294967295 then some eventDuration else none,
                 id := id, schemeIdUri := schemeIdUri, value := value,
                 data := bytes.drop (24 + schemeIdUri.length + 1 + value.length + 1) }
        else none
      | _, _, _, _ => none

/-- parseId3TrackSamples (mp4-tools.ts:133-185): one entry per emsg box, in
order; dropped boxes map to none (the source leaves undefined in the mapped
array). -/
def parseId3TrackSamples (data : List Nat) : List (Option EmsgRecord) :=
  (findBoxTop data [emsgT]).map parseEmsgBox

/-- Second definition, from the spec's words: an emsg payload is well formed
when it is long enough for the fixed header (24 bytes, so no DataView read
can throw), carries version byte 1, and its scheme URI is on the ID3
allow-list. -/
def emsgWellFormed (bytes : List Nat) : Prop :=
  24 ≤ bytes.length ∧ bytes.getD 0 0 = 1 ∧
    readNullTerminatedString bytes 24 ∈ ID3_SCHEME_ID_URIS

theorem parseEmsgBox_isSome (emsg : Mp4BoxData) :
    (parseEmsgBox emsg).isSome ↔
      emsgWellFormed ((emsg.data.drop emsg.start).take (emsg.stop - emsg.start)) := by
  rw [parseEmsgBox, emsgWellFormed]
  generalize (emsg.data.drop emsg.start).take (emsg.stop - emsg.start) = bytes
  by_cases h24 : 24 ≤ bytes.length
  · have h8 : getUint8? bytes 0 = some (bytes.getD 0 0) := by
      rw [getUint8?, if_pos (by omega)]
    obtain ⟨a, hA⟩ : ∃ a, getUint32? bytes 4 = some a :=
      ⟨_, by rw [getUint32?, if_pos (by omega)]⟩
    obtain ⟨b, hB⟩ : ∃ b, getUint64? bytes 8 = some b :=
      ⟨_, by rw [getUint64?, if_pos (by omega)]⟩
    obtain ⟨c, hC⟩ : ∃ c, getUint32? bytes 16 = some c :=
      ⟨_, by rw [getUint32?, if_pos (by omega)]⟩
    obtain ⟨d, hD⟩ : ∃ d, getUint32? bytes 20 = some d :=
      ⟨_, by rw [getUint32?, if_pos (by omega)]⟩
    rw [h8, hA, hB, hC, hD]
    dsimp only
    by_cases hv : bytes.getD 0 0 = 1
    · have hv' : bytes[0]?.getD 0 = 1 := by
        simpa [List.getD_eq_getElem?_getD] using hv
      rw [if_neg (by simpa using hv)]
      by_cases hs : readNullTerminatedString bytes 24 ∈ ID3_SCHEME_ID_URIS
      · rw [if_pos hs]
        simp [hv', hs, h24]
      · rw [if_neg hs]
        simp [hs]
    · have hv' : ¬ bytes[0]?.getD 0 = 1 := by
        simpa [List.getD_eq_getElem?_getD] using hv
      rw [if_pos (by simpa using hv)]
      simp [hv']
  · have hD : getUint32? bytes 20 = none := by rw [getUint32?, if_neg (by omega)]
    rcases h8 : getUint8? bytes 0 with _ | version
    · simp [h24]
    · dsimp only
      by_cases hv : version ≠ 1
      · rw [if_pos hv]
        simp [h24]
      · rw [if_neg hv]
        rcases hA : getUint32? bytes 4 with _ | a <;>
          rcases hB : getUint64? bytes 8 with _ | b <;>
            rcases hC : getUint32? bytes 16 with _ | c <;>
              simp [hD, h24]

/-- C5: parseId3TrackSamples never throws and one malformed event never
aborts the batch: there is exactly one entry per emsg box, in order, each
computed independently; an entry carries a record exactly when its emsg
payload is well formed (version byte 1, allow-listed scheme URI, and enough
bytes that no read can fail), and every other box is dropped as none while
the remaining well-formed boxes still yield their records. -/
theorem parseId3TrackSamples_per_entry (data : List Nat) :
    (parseId3TrackSamples data).length = (findBoxTop data [emsgT]).length ∧
    (∀ (k : Nat), k < (findBoxTop data [emsgT]).length →
      (parseId3TrackSamples data).getD k none =
        parseEmsgBox ((findBoxTop data [emsgT]).getD k ⟨[], 0, 0⟩)) ∧
    (∀ emsg ∈ findBoxTop data [emsgT],
      (parseEmsgBox emsg).isSome ↔
        emsgWellFormed ((emsg.data.drop emsg.start).take (emsg.stop - emsg.start))) := by
  refine ⟨by simp [parseId3TrackSamples], ?_, fun emsg _ => parseEmsgBox_isSome emsg⟩
  intro k hk
  rw [parseId3TrackSamples, List.getD_eq_getElem?_getD, List.getElem?_map,
    List.getElem?_eq_getElem hk, List.getD_eq_getElem?_getD, List.getElem?_eq_getElem hk]
  rfl

theorem parseId3TrackSamples_per_entry_witness :
    (parseId3TrackSamples [0, 0, 0, 9, 101, 109, 115, 103, 0]).getD 0 none =
        parseEmsgBox ((findBoxTop [0, 0, 0, 9, 101, 109, 115, 103, 0] [emsgT]).getD 0
          ⟨[], 0, 0⟩) ∧
      (parseId3TrackSamples [0, 0, 0, 9, 101, 109, 115, 103, 0]).length = 1 := by
  have h := parseId3TrackSamples_per_entry [0, 0, 0, 9, 101, 109, 115, 103, 0]
  exact ⟨h.2.1 0 (by decide), h.1.trans (by decide)⟩

/-- SampleFlags (mp4-tools.ts:1200-1208), decomposed by parseSampleFlags
(mp4-tools.ts:1225-1235). -/
structure SampleFlags where
  isLeading : Nat
  dependsOn : Nat
  isDependedOn : Nat
  hasRedundancy : Nat
  paddingValue : Nat
  isNonSyncSample : Nat
  degradationPriority : Nat
  deriving DecidableEq

def parseSampleFlags (flags : List Nat) : SampleFlags :=
  { isLeading := (flags.getD 0 0 &&& 12) / 4,
    dependsOn := flags.getD 0 0 &&& 3,
    isDependedOn := (flags.getD 1 0 &&& 192) / 64,
    hasRedundancy := (flags.getD 1 0 &&& 48) / 16,
    paddingValue := (flags.getD 1 0 &&& 14) / 2,
    isNonSyncSample := flags.getD 1 0 &&& 1,
    degradationPriority := flags.getD 2 0 * 256 + flags.getD 3 0 }

/-- TrunSample (mp4-tools.ts:1090-1098); every field is optional until
filled. -/
structure TrunSample where
  flags : Option SampleFlags
  duration : Option Nat
  size : Option Nat
  compositionTimeOffset : Option Nat
  dts : Option Nat
  pts : Option Nat
  trackId : Option Nat
  deriving DecidableEq

def emptySample : TrunSample :=
  { flags := none, duration := none, size := none, compositionTimeOffset := none,
    dts := none, pts := none, trackId := none }

/-- TrunInfo (mp4-tools.ts:1100-1105). -/
structure TrunInfo where
  version : Nat
  flags : List Nat
  samples : List TrunSample
  dataOffset : Option Int
  deriving DecidableEq

/-- DataView.getInt32 (big-endian, signed): a RangeError outside the view is
none. -/
def getInt32? (data : List Nat) (offset : Nat) : Option Int :=
  (getUint32? data offset).map
    (fun u => if 2147483648 ≤ u then (u : Int) - 4294967296 else (u : Int))

/-- One gated optional 32-bit sample field: present fields are read through
the DataView (and can fail), absent fields leave the cursor unchanged. -/
def readIf (present : Bool) (data : List Nat) (offset : Nat) :
    Option (Option Nat × Nat) :=
  if present then (getUint32? data offset).map (fun v => (some v, offset + 4))
  else some (none, offset)

/-- The per-sample while loop of parseTrun (mp4-tools.ts:1168-1196): for each
remaining sample read duration, size, flags and composition offset, each
gated by its presence bit, in that order. The flags field is read through
subarray and cannot fail. -/
def trunSampleLoop (data : List Nat) (sdp ssp sfp sctp : Bool) :
    Nat → Nat → Option (List TrunSample)
  | 0, _ => some []
  | n + 1, offset => do
    let (duration, o1) ← readIf sdp data offset
    let (size, o2) ← readIf ssp data o1
    let (sflags, o3) :=
      if sfp then (some (parseSampleFlags ((data.drop o2).take 4)), o2 + 4)
      else (none, o2)
    let (cts, o4) ← readIf sctp data o3
    let rest ← trunSampleLoop data sdp ssp sfp sctp n o4
    some ({ flags := sflags, duration := duration, size := size,
            compositionTimeOffset := cts, dts := none, pts := none,
            trackId := none } :: rest)

/-- parseTrun (mp4-tools.ts:1112-1198). Presence bits are taken from the
flags bytes exactly as in the source: result.flags[2] gates data-offset and
first-sample-flags, result.flags[1] gates the per-sample fields. The first
sample may carry a flags override in place of its own flags field; it reads
duration, size and composition offset but never a per-sample flags field. -/
def parseTrun (trun : Mp4BoxData) : Option TrunInfo := do
  let data := (trun.data.drop trun.start).take (trun.stop - trun.start)
  let version := data.getD 0 0
  let flags := (data.drop 1).take 3
  let dataOffsetPresent := flags.getD 2 0 &&& 1 ≠ 0
  let firstSampleFlagsPresent := flags.getD 2 0 &&& 4 ≠ 0
  let sampleDurationPresent := flags.getD 1 0 &&& 1 ≠ 0
  let sampleSizePresent := flags.getD 1 0 &&& 2 ≠ 0
  let sampleFlagsPresent := flags.getD 1 0 &&& 4 ≠ 0
  let sampleCompositionTimeOffsetPresent := flags.getD 1 0 &&& 8 ≠ 0
  let sampleCount ← getUint32? data 4
  let (dataOffset, o1) ←
    if dataOffsetPresent then (getInt32? data 8).map (fun v => (some v, 12))
    else some ((none : Option Int), 8)
  if firstSampleFlagsPresent ∧ sampleCount ≠ 0 then
    let sflags := parseSampleFlags ((data.drop o1).take 4)
    let (duration, o2) ← readIf sampleDurationPresent data (o1 + 4)
    let (size, o3) ← readIf sampleSizePresent data o2
    let (cts, o4) ← readIf sampleCompositionTimeOffsetPresent data o3
    let first : TrunSample :=
      { flags := some sflags, duration := duration, size := size,
        compositionTimeOffset := cts, dts := none, pts := none, trackId := none }
    let rest ← trunSampleLoop data sampleDurationPresent sampleSizePresent
      sampleFlagsPresent sampleCompositionTimeOffsetPresent (sampleCount - 1) o4
    some { version := version, flags := flags, samples := first :: rest,
           dataOffset := dataOffset }
  else
    let samples ← trunSampleLoop data sampleDurationPresent sampleSizePresent
      sampleFlagsPresent sampleCompositionTimeOffsetPresent sampleCount o1
    some { version := version, flags := flags, samples := samples,
           dataOffset := dataOffset }

/-- TfhdInfo (mp4-tools.ts:850-861); parseSamples consumes trackId and the
two defaults, the other optional fields are carried for fidelity. -/
structure TfhdInfo where
  version : Nat
  flags : List Nat
  trackId : Nat
  baseDataOffset : Option Nat
  sampleDescriptionIndex : Option Nat
  defaultSampleDuration : Option Nat
  defaultSampleSize : Option Nat
  defaultSampleFlags : Option Nat
  durationIsEmpty : Option Bool
  baseDataOffsetIsMoof : Option Bool
  deriving DecidableEq

/-- The per-sample mutation loop of parseSamples (mp4-tools.ts:974-989):
default any omitted duration and size, stamp the track id, assign the
running dts, default the composition offset to 0 and set
pts = dts + compositionTimeOffset, then advance the running dts by the
sample's duration. Returns the final running dts and the updated samples. -/
def assignSampleTimes (defaultSampleDuration defaultSampleSize trackId : Nat) :
    Nat → List TrunSample → Nat × List TrunSample
  | dts, [] => (dts, [])
  | dts, s :: rest =>
    let duration := s.duration.getD defaultSampleDuration
    let size := s.size.getD defaultSampleSize
    let cts := s.compositionTimeOffset.getD 0
    let s' : TrunSample :=
      { flags := s.flags, duration := some duration, size := some size,
        compositionTimeOffset := some cts, dts := some dts,
        pts := some (dts + cts), trackId := some trackId }
    let r := assignSampleTimes defaultSampleDuration defaultSampleSize trackId
      (dts + duration) rest
    (r.1, s' :: r.2)

def parseSamplesGo (defaultSampleDuration defaultSampleSize trackId : Nat) :
    List Mp4BoxData → Nat → Option (Nat × List TrunSample)
  | [], dts => some (dts, [])
  | trun :: rest, dts => do
    let trackRun ← parseTrun trun
    let r := assignSampleTimes defaultSampleDuration defaultSampleSize trackId dts
      trackRun.samples
    let r2 ← parseSamplesGo defaultSampleDuration defaultSampleSize trackId rest r.1
    some (r2.1, r.2 ++ r2.2)

/-- parseSamples (mp4-tools.ts:956-995): the running dts starts at the
fragment's base media decode time and persists across truns; the tfhd
defaults fall back to 0 (the source's || 0). A parse exception in any trun
propagates (none). -/
def parseSamples (truns : List Mp4BoxData) (baseMediaDecodeTime : Nat)
    (tfhd : TfhdInfo) : Option (List TrunSample) :=
  (parseSamplesGo (tfhd.defaultSampleDuration.getD 0) (tfhd.defaultSampleSize.getD 0)
    tfhd.trackId truns baseMediaDecodeTime).map (fun r => r.2)

/-- The sum of the (defaulted) durations of a sample list. -/
def sumDur (l : List TrunSample) : Nat := (l.map (fun s => s.duration.getD 0)).sum

/-- The timeline invariant: each sample carries the running dts, its pts is
dts plus its composition offset, and the next sample's dts advances by this
sample's duration. -/
def Chained : Nat → List TrunSample → Prop
  | _, [] => True
  | b, s :: rest =>
    s.dts = some b ∧ s.pts = some (b + s.compositionTimeOffset.getD 0) ∧
      s.duration.isSome ∧ s.size.isSome ∧
      Chained (b + s.duration.getD 0) rest

theorem assignSampleTimes_chained (dd ds tid : Nat) :
    ∀ (raw : List TrunSample) (dts : Nat),
      Chained dts (assignSampleTimes dd ds tid dts raw).2 ∧
        (assignSampleTimes dd ds tid dts raw).1 =
          dts + sumDur (assignSampleTimes dd ds tid dts raw).2 := by
  intro raw
  induction raw with
  | nil => intro dts; exact ⟨trivial, by simp [assignSampleTimes, sumDur]⟩
  | cons s rest ih =>
    intro dts
    obtain ⟨ih1, ih2⟩ := ih (dts + s.duration.getD dd)
    constructor
    · exact ⟨rfl, rfl, rfl, rfl, ih1⟩
    · simp only [assignSampleTimes, sumDur, List.map_cons, List.sum_cons,
        Option.getD_some] at ih2 ⊢
      omega

theorem chained_append :
    ∀ (l1 l2 : List TrunSample) (b : Nat),
      Chained b l1 → Chained (b + sumDur l1) l2 → Chained b (l1 ++ l2) := by
  intro l1
  induction l1 with
  | nil => intro l2 b _ h2; simpa [sumDur] using h2
  | cons s rest ih =>
    intro l2 b h1 h2
    obtain ⟨hd, hp, hdur, hsz, hc⟩ := h1
    refine ⟨hd, hp, hdur, hsz, ih l2 _ hc ?_⟩
    have : b + sumDur (s :: rest) = b + s.duration.getD 0 + sumDur rest := by
      simp [sumDur]; omega
    rw [← this]
    exact h2

theorem parseSamplesGo_chained (dd ds tid : Nat) :
    ∀ (truns : List Mp4BoxData) (dts : Nat) (r : Nat × List TrunSample),
      parseSamplesGo dd ds tid truns dts = some r →
      Chained dts r.2 ∧ r.1 = dts + sumDur r.2 := by
  intro truns
  induction truns with
  | nil =>
    intro dts r h
    simp only [parseSamplesGo, Option.some.injEq] at h
    subst h
    exact ⟨trivial, by simp [sumDur]⟩
  | cons trun rest ih =>
    intro dts r h
    simp only [parseSamplesGo, Option.bind_eq_bind, Option.bind_eq_some] at h
    obtain ⟨trackRun, htr, h⟩ := h
    obtain ⟨r2, hr2, h⟩ := h
    obtain ⟨ha1, ha2⟩ := assignSampleTimes_chained dd ds tid trackRun.samples dts
    obtain ⟨hc2, he2⟩ := ih _ r2 hr2
    simp only [Option.some.injEq] at h
    subst h
    constructor
    · exact chained_append _ _ _ ha1 (by rw [← ha2]; exact hc2)
    · simp only [sumDur, List.map_append, List.sum_append] at ha2 he2 ⊢
      omega

theorem chained_getD :
    ∀ (l : List TrunSample) (b : Nat), Chained b l →
      ∀ (i : Nat), i < l.length →
        (l.getD i emptySample).dts = some (b + sumDur (l.take i)) ∧
        (l.getD i emptySample).pts =
          some (b + sumDur (l.take i) + (l.getD i emptySample).compositionTimeOffset.getD 0) ∧
        (l.getD i emptySample).duration.isSome ∧ (l.getD i emptySample).size.isSome := by
  intro l
  induction l with
  | nil => intro b _ i hi; simp at hi
  | cons s rest ih =>
    intro b h i hi
    obtain ⟨hd, hp, hdur, hsz, hc⟩ := h
    cases i with
    | zero =>
      simp only [List.getD_cons_zero, List.take_zero, sumDur, List.map_nil, List.sum_nil,
        Nat.add_zero]
      exact ⟨hd, hp, hdur, hsz⟩
    | succ i =>
      have := ih (b + s.duration.getD 0) hc i (by simpa using hi)
      simp only [List.getD_cons_succ, List.take_succ_cons, sumDur, List.map_cons,
        List.sum_cons] at this ⊢
      obtain ⟨h1, h2, h3, h4⟩ := this
      refine ⟨?_, ?_, h3, h4⟩
      · rw [h1]; congr 1; simp [sumDur]; omega
      · rw [h2]; congr 1; simp [sumDur]; omega

/-- C8: the samples returned by parseSamples are in file order; the first
sample's dts is the base decode time and each sample's dts is the base time
plus the sum of the durations of the samples before it (durations and sizes
are filled, defaulted from the tfhd when omitted), hence dts is
non-decreasing; each sample's pts is its dts plus its composition-time
offset, which defaults to 0 when absent. -/
theorem parseSamples_dts_pts (truns : List Mp4BoxData) (baseMediaDecodeTime : Nat)
    (tfhd : TfhdInfo) (samples : List TrunSample)
    (h : parseSamples truns baseMediaDecodeTime tfhd = some samples) :
    ∀ (i : Nat), i < samples.length →
      (samples.getD i emptySample).dts =
        some (baseMediaDecodeTime + sumDur (samples.take i)) ∧
      (samples.getD i emptySample).pts =
        some (baseMediaDecodeTime + sumDur (samples.take i) +
          (samples.getD i emptySample).compositionTimeOffset.getD 0) ∧
      (samples.getD i emptySample).duration.isSome ∧
      (samples.getD i emptySample).size.isSome := by
  rw [parseSamples] at h
  rcases hgo : parseSamplesGo (tfhd.defaultSampleDuration.getD 0)
      (tfhd.defaultSampleSize.getD 0) tfhd.trackId truns baseMediaDecodeTime with _ | r
  · rw [hgo] at h; simp at h
  · rw [hgo] at h
    simp only [Option.map_some', Option.some.injEq] at h
    subst h
    have := parseSamplesGo_chained _ _ _ truns baseMediaDecodeTime r hgo
    exact chained_getD r.2 baseMediaDecodeTime this.1

theorem parseSamples_dts_pts_witness :
    parseSamples [⟨[0, 0, 1, 0, 0, 0, 0, 2, 0, 0, 0, 10, 0, 0, 0, 20], 0, 16⟩] 100
        { version := 0, flags := [0, 0, 0], trackId := 1, baseDataOffset := none,
          sampleDescriptionIndex := none, defaultSampleDuration := none,
          defaultSampleSize := some 99, defaultSampleFlags := none,
          durationIsEmpty := none, baseDataOffsetIsMoof := none } =
      some
        [{ flags := none, duration := some 10, size := some 99,
           compositionTimeOffset := some 0, dts := some 100, pts := some 100,
           trackId := some 1 },
         { flags := none, duration := some 20, size := some 99,
           compositionTimeOffset := some 0, dts := some 110, pts := some 110,
           trackId := some 1 }] ∧
    ([{ flags := none, duration := some 10, size := some 99,
        compositionTimeOffset := some 0, dts := some 100, pts := some 100,
        trackId := (some 1 : Option Nat) },
      { flags := none, duration := some 20, size := some 99,
        compositionTimeOffset := some 0, dts := some 110, pts := some 110,
        trackId := some 1 }].getD 1 emptySample).dts = some 110 := by
  constructor
  · decide
  · have h := parseSamples_dts_pts
      [⟨[0, 0, 1, 0, 0, 0, 0, 2, 0, 0, 0, 10, 0, 0, 0, 20], 0, 16⟩] 100
      { version := 0, flags := [0, 0, 0], trackId := 1, baseDataOffset := none,
        sampleDescriptionIndex := none, defaultSampleDuration := none,
        defaultSampleSize := some 99, defaultSampleFlags := none,
        durationIsEmpty := none, baseDataOffsetIsMoof := none }
      [{ flags := none, duration := some 10, size := some 99,
         compositionTimeOffset := some 0, dts := some 100, pts := some 100,
         trackId := some 1 },
       { flags := none, duration := some 20, size := some 99,
         compositionTimeOffset := some 0, dts := some 110, pts := some 110,
         trackId := some 1 }] (by decide) 1 (by decide)
    exact h.1.trans (by decide)

/-- The track table entries consumed by the fragment timing operations: of
the InitData records only the timescale (and existence, via lookup by
numeric track id) is read by getStartDTS and offsetStartDTS. -/
structure InitTrack where
  timescale : Nat
  deriving DecidableEq

/-- InitData (mp4-tools.ts:313-326) restricted to its numeric-id index, as an
association list: initData[id]. -/
abbrev InitData := List (Nat × InitTrack)

def lookupTrack (initData : InitData) (id : Nat) : Option InitTrack :=
  (initData.find? (fun e => e.1 = id)).map (fun e => e.2)

/-- Math-style truncation toward zero of a rational, as applied by ToInt32 to
a JS number before the bit operations of writeUint32. -/
def ratTrunc (q : ℚ) : Int := if 0 ≤ q then ⌊q⌋ else -⌊-q⌋

/-- JS remainder: n % d = n - d * trunc(n / d) (dividend-signed). -/
def jsMod (n d : ℚ) : ℚ := n - d * (ratTrunc (n / d) : ℚ)

/-- The body of the tfdt forEach of offsetStartDTS (mp4-tools.ts:604-618),
patching one tfdt whose payload starts at s in buf: version 0 writes the
32-bit value base - timeOffset * timescale directly with no clamping; any
other version offsets the 64-bit base (high * 2^32 + low), clamps at zero,
splits with Math.floor division and remainder by UINT32_MAX + 1 and writes
both words back. -/
def offsetTfdt (buf : List Nat) (s : Nat) (timeOffset : ℚ) (timescale : Nat) : List Nat :=
  let version := buf.getD s 0
  let baseMediaDecodeTime := readUint32 buf (s + 4)
  if version = 0 then
    writeUint32 buf (s + 4) (ratTrunc ((baseMediaDecodeTime : ℚ) - timeOffset * timescale))
  else
    let b : ℚ := max ((baseMediaDecodeTime : ℚ) * 4294967296 + (readUint32 buf (s + 8) : ℚ)
      - timeOffset * (timescale : ℚ)) 0
    writeUint32 (writeUint32 buf (s + 4) ⌊b / 4294967296⌋) (s + 8) ⌊jsMod b 4294967296⌋

/-- offsetStartDTS (mp4-tools.ts:588-622). The views alias the live buffer,
so the buffer state threads through the nested loops: moof/traf views come
from the original buffer, the tfhd and tfdt searches and every read go
through the buffer as mutated so far. -/
def offsetStartDTS (initData : InitData) (fmp4 : List Nat) (timeOffset : ℚ) : List Nat :=
  (findBoxTop fmp4 [moofT, trafT]).foldl (fun buf1 traf =>
    (findBox buf1 traf.start traf.stop [tfhdT]).foldl (fun buf2 tfhd =>
      match lookupTrack initData (readUint32 buf2 (tfhd.start + 4)) with
      | none => buf2
      | some track =>
        (findBox buf2 traf.start traf.stop [tfdtT]).foldl
          (fun buf3 tfdt =>
            offsetTfdt buf3 tfdt.start timeOffset
              (if track.timescale = 0 then 90000 else track.timescale))
          buf2) buf1) fmp4

theorem ratTrunc_intCast (k : Int) : ratTrunc ((k : Int) : ℚ) = k := by
  rw [ratTrunc]
  split
  · exact Int.floor_intCast k
  · rw [show (-(k : ℚ)) = ((-k : Int) : ℚ) by push_cast; ring, Int.floor_intCast]
    omega

theorem floor_intCast_div_pow32 (a : Int) : ⌊(a : ℚ) / 4294967296⌋ = a / 4294967296 := by
  rw [show ((4294967296 : ℚ)) = ((4294967296 : Nat) : ℚ) by norm_num,
    Rat.floor_intCast_div_natCast]
  norm_num

theorem jsMod_intCast_nonneg (a : Int) (ha : 0 ≤ a) :
    jsMod ((a : Int) : ℚ) 4294967296 = ((a % 4294967296 : Int) : ℚ) := by
  rw [jsMod, ratTrunc,
    if_pos (div_nonneg (by exact_mod_cast ha) (by norm_num : (0 : ℚ) ≤ 4294967296)),
    floor_intCast_div_pow32, Int.emod_def]
  push_cast
  ring

/-- Version-0 patch: the 32-bit word becomes base - delta mod 2^32, with no
clamping against negative results. -/
theorem offsetTfdt_v0 (buf : List Nat) (s : Nat) (t : ℚ) (ts : Nat) (k : Int)
    (hver : buf.getD s 0 = 0) (hlen : s + 7 < buf.length)
    (hk : t * (ts : ℚ) = (k : ℚ)) :
    (readUint32 (offsetTfdt buf s t ts) (s + 4) : Int) =
      ((readUint32 buf (s + 4) : Int) - k) % 4294967296 := by
  rw [offsetTfdt]
  dsimp only
  rw [if_pos hver]
  have harg : ((readUint32 buf (s + 4) : Nat) : ℚ) - t * ts =
      (((readUint32 buf (s + 4) : Int) - k : Int) : ℚ) := by
    rw [hk]; push_cast; ring
  rw [harg, ratTrunc_intCast, readUint32_writeUint32 buf (s + 4) _ (by omega)]
  omega

/-- Version-1 patch: the two stored words are the floor quotient and floor
remainder of the clamped offset base by 2^32 (each stored through the
wrapping 32-bit write), and for a nonnegative delta the decoded 64-bit value
is exactly max(base - delta, 0). -/
theorem offsetTfdt_v1 (buf : List Nat) (s : Nat) (t : ℚ) (ts : Nat) (k : Int)
    (hver : buf.getD s 0 ≠ 0) (hlen : s + 11 < buf.length)
    (hk : t * (ts : ℚ) = (k : ℚ)) :
    readUint32 (offsetTfdt buf s t ts) (s + 4) =
      (((max ((readUint32 buf (s + 4) : Int) * 4294967296 + (readUint32 buf (s + 8) : Int) - k)
        0) / 4294967296) % 4294967296).toNat ∧
    readUint32 (offsetTfdt buf s t ts) (s + 8) =
      ((max ((readUint32 buf (s + 4) : Int) * 4294967296 + (readUint32 buf (s + 8) : Int) - k)
        0) % 4294967296).toNat ∧
    (0 ≤ k →
      (readUint32 (offsetTfdt buf s t ts) (s + 4) : Int) * 4294967296 +
        (readUint32 (offsetTfdt buf s t ts) (s + 8) : Int) =
        max ((readUint32 buf (s + 4) : Int) * 4294967296 +
          (readUint32 buf (s + 8) : Int) - k) 0) := by
  rw [offsetTfdt]
  dsimp only
  rw [if_neg hver]
  set r4 := readUint32 buf (s + 4) with hr4
  set r8 := readUint32 buf (s + 8) with hr8
  set B : Int := max ((r4 : Int) * 4294967296 + (r8 : Int) - k) 0 with hB
  have hBnn : 0 ≤ B := le_max_right _ _
  have hb : max ((r4 : ℚ) * 4294967296 + (r8 : ℚ) - t * ts) 0 = ((B : Int) : ℚ) := by
    rw [hk, hB]
    push_cast [Int.cast_max]
    ring_nf
  rw [hb, floor_intCast_div_pow32, jsMod_intCast_nonneg B hBnn, Int.floor_intCast]
  have hw1 : readUint32 (writeUint32 (writeUint32 buf (s + 4) (B / 4294967296)) (s + 8)
      (B % 4294967296)) (s + 4) = ((B / 4294967296) % 4294967296).toNat := by
    rw [readUint32_writeUint32_disjoint _ (s + 8) (s + 4) _ (by omega),
      readUint32_writeUint32 buf (s + 4) _ (by omega)]
  have hw2 : readUint32 (writeUint32 (writeUint32 buf (s + 4) (B / 4294967296)) (s + 8)
      (B % 4294967296)) (s + 8) = ((B % 4294967296) % 4294967296).toNat := by
    rw [readUint32_writeUint32 _ (s + 8) _ (by rw [length_writeUint32]; omega)]
  refine ⟨hw1, by rw [hw2]; omega, ?_⟩
  intro hknn
  rw [hw1, hw2]
  have h4 : r4 < 4294967296 := readUint32_lt buf (s + 4)
  have h8 : r8 < 4294967296 := readUint32_lt buf (s + 8)
  have hBlt : B < 4294967296 * 4294967296 := by rw [hB]; omega
  omega

/-- C3: on a fragment whose box searches resolve a single traf with a single
tfhd (resolving to a known track) and a single tfdt, offsetStartDTS patches
the tfdt in place: for version 0 the 32-bit word becomes
base - timeOffset * timescale with no clamping against negative results (mod
2^32 through the wrapping write); for version 1 the stored base decode time
(high * 2^32 + low) becomes max(base - timeOffset * timescale, 0), the words
being its floor quotient and floor remainder by 2^32; the timescale falls
back to 90000 when the track's is zero (the delta k is
timeOffset * effective-timescale, assumed integral). -/
theorem offsetStartDTS_patch (initData : InitData) (fmp4 : List Nat) (timeOffset : ℚ)
    (a b c d s e : Nat) (track : InitTrack) (k : Int)
    (h1 : findBoxTop fmp4 [moofT, trafT] = [⟨fmp4, a, b⟩])
    (h2 : findBox fmp4 a b [tfhdT] = [⟨fmp4, c, d⟩])
    (h4 : lookupTrack initData (readUint32 fmp4 (c + 4)) = some track)
    (h5 : findBox fmp4 a b [tfdtT] = [⟨fmp4, s, e⟩])
    (hk : timeOffset * ((if track.timescale = 0 then 90000 else track.timescale : Nat) : ℚ)
      = (k : ℚ)) :
    (fmp4.getD s 0 = 0 → s + 7 < fmp4.length →
      (readUint32 (offsetStartDTS initData fmp4 timeOffset) (s + 4) : Int) =
        ((readUint32 fmp4 (s + 4) : Int) - k) % 4294967296) ∧
    (fmp4.getD s 0 ≠ 0 → s + 11 < fmp4.length →
      readUint32 (offsetStartDTS initData fmp4 timeOffset) (s + 4) =
        (((max ((readUint32 fmp4 (s + 4) : Int) * 4294967296 +
          (readUint32 fmp4 (s + 8) : Int) - k) 0) / 4294967296) % 4294967296).toNat ∧
      readUint32 (offsetStartDTS initData fmp4 timeOffset) (s + 8) =
        ((max ((readUint32 fmp4 (s + 4) : Int) * 4294967296 +
          (readUint32 fmp4 (s + 8) : Int) - k) 0) % 4294967296).toNat ∧
      (0 ≤ k →
        (readUint32 (offsetStartDTS initData fmp4 timeOffset) (s + 4) : Int) * 4294967296 +
          (readUint32 (offsetStartDTS initData fmp4 timeOffset) (s + 8) : Int) =
          max ((readUint32 fmp4 (s + 4) : Int) * 4294967296 +
            (readUint32 fmp4 (s + 8) : Int) - k) 0)) := by
  have hres : offsetStartDTS initData fmp4 timeOffset =
      offsetTfdt fmp4 s timeOffset
        (if track.timescale = 0 then 90000 else track.timescale) := by
    rw [offsetStartDTS, h1]
    simp only [List.foldl_cons, List.foldl_nil]
    rw [h2]
    simp only [List.foldl_cons, List.foldl_nil]
    rw [h4, h5]
    simp only [List.foldl_cons, List.foldl_nil]
  rw [hres]
  constructor
  · intro hver hlen
    exact offsetTfdt_v0 fmp4 s timeOffset _ k hver hlen hk
  · intro hver hlen
    exact offsetTfdt_v1 fmp4 s timeOffset _ k hver hlen hk

theorem offsetStartDTS_patch_witness :
    readUint32 (offsetStartDTS [(1, ⟨100⟩)]
      [0, 0, 0, 52, 109, 111, 111, 102, 0, 0, 0, 44, 116, 114, 97, 102,
       0, 0, 0, 16, 116, 102, 104, 100, 0, 0, 0, 0, 0, 0, 0, 1,
       0, 0, 0, 20, 116, 102, 100, 116, 1, 0, 0, 0, 0, 0, 0, 0, 0, 0, 1, 44] 2) 44 = 0 ∧
    readUint32 (offsetStartDTS [(1, ⟨100⟩)]
      [0, 0, 0, 52, 109, 111, 111, 102, 0, 0, 0, 44, 116, 114, 97, 102,
       0, 0, 0, 16, 116, 102, 104, 100, 0, 0, 0, 0, 0, 0, 0, 1,
       0, 0, 0, 20, 116, 102, 100, 116, 1, 0, 0, 0, 0, 0, 0, 0, 0, 0, 1, 44] 2) 48 = 100 := by
  have h := (offsetStartDTS_patch [(1, ⟨100⟩)]
    [0, 0, 0, 52, 109, 111, 111, 102, 0, 0, 0, 44, 116, 114, 97, 102,
     0, 0, 0, 16, 116, 102, 104, 100, 0, 0, 0, 0, 0, 0, 0, 1,
     0, 0, 0, 20, 116, 102, 100, 116, 1, 0, 0, 0, 0, 0, 0, 0, 0, 0, 1, 44] 2
    16 52 24 32 40 52 ⟨100⟩ 200
    (by decide) (by decide) (by decide) (by decide) (by norm_num)).2 (by decide) (by decide)
  exact ⟨h.1.trans (by decide), h.2.1.trans (by decide)⟩

/-- The candidate start time one tfhd contributes inside getStartDTS
(mp4-tools.ts:414-436): none when the track id is unknown; otherwise the
tfdt base decode time (version 1 decodes high * 2^32 + low) divided by the
track's timescale, 90000 when that is zero. The source's isFinite guard is
always true here since the divisor is never zero. -/
def startTimeOf (initData : InitData) (version : Nat) (tfdt tfhd : Mp4BoxData) : Option ℚ :=
  (lookupTrack initData (readUint32V tfhd 4)).map (fun track =>
    ((if version = 1 then readUint32V tfdt 4 * 4294967296 + readUint32V tfdt 8
      else readUint32V tfdt 4 : Nat) : ℚ) /
    ((if track.timescale = 0 then 90000 else track.timescale : Nat) : ℚ))

/-- The accumulator update shared by both reduces in getStartDTS: take the
new candidate when there is no current minimum or it is strictly smaller. -/
def minStep (r : Option ℚ) (q : ℚ) : Option ℚ :=
  match r with
  | none => some q
  | some cur => some (if q < cur then q else cur)

/-- getStartDTS (mp4-tools.ts:407-449). The missing-tfdt dereference
(findBox(traf, [tfdt])[0].data) throws in the source; that is the outer
none. The inner reduce folds candidate start times with the strict-minimum
update seeded by null; the outer reduce does the same per traf; null at the
end becomes 0. -/
def getStartDTS (initData : InitData) (fmp4 : List Nat) : Option ℚ :=
  (((findBoxTop fmp4 [moofT, trafT]).foldlM (fun (result : Option ℚ) (traf : Mp4BoxData) =>
    match (findBox fmp4 traf.start traf.stop [tfdtT]).head? with
    | none => none
    | some tfdt =>
      match (findBox fmp4 traf.start traf.stop [tfhdT]).foldl
        (fun r tfhd =>
          match startTimeOf initData (tfdt.data.getD tfdt.start 0) tfdt tfhd with
          | none => r
          | some startTime => minStep r startTime) none with
      | none => some result
      | some sv => some (minStep result sv)) none : Option (Option ℚ))).map
    (fun r => r.getD 0)

/-- Second definition, from the spec's words: every start time contributed by
a moof/traf pair whose tfhd track id resolves, in document order. -/
def startDTSTimes (initData : InitData) (fmp4 : List Nat) : List ℚ :=
  (findBoxTop fmp4 [moofT, trafT]).flatMap (fun traf =>
    match (findBox fmp4 traf.start traf.stop [tfdtT]).head? with
    | none => []
    | some tfdt =>
      (findBox fmp4 traf.start traf.stop [tfhdT]).filterMap
        (startTimeOf initData (tfdt.data.getD tfdt.start 0) tfdt))

def listMin? : List ℚ → Option ℚ
  | [] => none
  | x :: xs => some (xs.foldl min x)

def mergeMin (x y : Option ℚ) : Option ℚ :=
  match x, y with
  | none, y => y
  | some c, none => some c
  | some c, some m => some (min c m)

theorem mergeMin_none_right (x : Option ℚ) : mergeMin x none = x := by
  cases x <;> rfl

theorem minStep_eq_mergeMin (r : Option ℚ) (q : ℚ) : minStep r q = mergeMin r (some q) := by
  cases r with
  | none => rfl
  | some cur =>
    simp only [minStep, mergeMin, Option.some.injEq]
    rcases lt_or_ge q cur with h | h
    · rw [if_pos h, min_eq_right h.le]
    · rw [if_neg (not_lt.mpr h), min_eq_left h]

theorem foldl_min_init (xs : List ℚ) :
    ∀ a b, xs.foldl min (min a b) = min a (xs.foldl min b) := by
  induction xs with
  | nil => intro a b; rfl
  | cons y ys ih =>
    intro a b
    simp only [List.foldl_cons, min_assoc]
    exact ih a (min b y)

theorem listMin?_cons (q : ℚ) (l : List ℚ) :
    listMin? (q :: l) = mergeMin (some q) (listMin? l) := by
  cases l with
  | nil => rfl
  | cons y ys =>
    simp only [listMin?, mergeMin, List.foldl_cons, Option.some.injEq]
    exact foldl_min_init ys q y

theorem listMin?_append (l1 l2 : List ℚ) :
    listMin? (l1 ++ l2) = mergeMin (listMin? l1) (listMin? l2) := by
  induction l1 with
  | nil => cases l2 <;> rfl
  | cons x xs ih =>
    rw [List.cons_append, listMin?_cons, ih, listMin?_cons]
    rcases listMin? xs with _ | a <;> rcases listMin? l2 with _ | b <;>
      simp [mergeMin, min_assoc]

theorem mergeMin_assoc (x y z : Option ℚ) :
    mergeMin (mergeMin x y) z = mergeMin x (mergeMin y z) := by
  rcases x with _ | a <;> rcases y with _ | b <;> rcases z with _ | c <;>
    simp [mergeMin, min_assoc]

theorem foldl_optMin_filterMap (f : Mp4BoxData → Option ℚ) (l : List Mp4BoxData) :
    ∀ r, l.foldl (fun r x =>
        match f x with
        | none => r
        | some q => minStep r q) r = mergeMin r (listMin? (l.filterMap f)) := by
  induction l with
  | nil => intro r; rw [List.foldl_nil, List.filterMap_nil]; exact (mergeMin_none_right r).symm
  | cons x xs ih =>
    intro r
    rw [List.foldl_cons, List.filterMap_cons]
    rcases hf : f x with _ | q
    · exact ih r
    · rw [ih (minStep r q), listMin?_cons, minStep_eq_mergeMin, mergeMin_assoc]

theorem getStartDTS_go (initData : InitData) (fmp4 : List Nat) :
    ∀ (trafs : List Mp4BoxData) (r : Option ℚ),
      (∀ traf ∈ trafs, findBox fmp4 traf.start traf.stop [tfdtT] ≠ []) →
      trafs.foldlM (fun result traf =>
        match (findBox fmp4 traf.start traf.stop [tfdtT]).head? with
        | none => none
        | some tfdt =>
          match (findBox fmp4 traf.start traf.stop [tfhdT]).foldl
            (fun r tfhd =>
              match startTimeOf initData (tfdt.data.getD tfdt.start 0) tfdt tfhd with
              | none => r
              | some startTime => minStep r startTime) none with
          | none => some result
          | some sv => some (minStep result sv)) r =
        some (mergeMin r (listMin? (trafs.flatMap (fun traf =>
          match (findBox fmp4 traf.start traf.stop [tfdtT]).head? with
          | none => []
          | some tfdt =>
            (findBox fmp4 traf.start traf.stop [tfhdT]).filterMap
              (startTimeOf initData (tfdt.data.getD tfdt.start 0) tfdt))))) := by
  intro trafs
  induction trafs with
  | nil =>
    intro r _
    rw [List.flatMap_nil, List.foldlM_nil]
    rw [show listMin? [] = none from rfl, mergeMin_none_right]
    rfl
  | cons traf rest ih =>
    intro r h
    rcases hfb : findBox fmp4 traf.start traf.stop [tfdtT] with _ | ⟨tfdt, more⟩
    · exact absurd hfb (h traf (List.mem_cons_self _ _))
    · rw [List.foldlM_cons, List.flatMap_cons, hfb]
      simp only [List.head?_cons]
      rw [foldl_optMin_filterMap]
      rw [show mergeMin none (listMin? ((findBox fmp4 traf.start traf.stop [tfhdT]).filterMap
        (startTimeOf initData (tfdt.data.getD tfdt.start 0) tfdt))) =
        listMin? ((findBox fmp4 traf.start traf.stop [tfhdT]).filterMap
          (startTimeOf initData (tfdt.data.getD tfdt.start 0) tfdt)) from rfl]
      rw [listMin?_append]
      rcases hm : listMin? ((findBox fmp4 traf.start traf.stop [tfhdT]).filterMap
          (startTimeOf initData (tfdt.data.getD tfdt.start 0) tfdt)) with _ | sv
      · show rest.foldlM _ r = _
        rw [ih r (fun t ht => h t (List.mem_cons_of_mem _ ht))]
        rfl
      · show rest.foldlM _ (minStep r sv) = _
        rw [ih (minStep r sv) (fun t ht => h t (List.mem_cons_of_mem _ ht)),
          minStep_eq_mergeMin, mergeMin_assoc]

/-- C6 (amended): provided every traf in the fragment contains a tfdt
(otherwise the source throws dereferencing findBox(traf, [tfdt])[0]),
getStartDTS returns the minimum, over all moof/traf pairs whose tfhd track
id resolves to a known track, of the tfdt base decode time (version 1
decoded as high * 2^32 + low) divided by the track's timescale (90000 when
that is zero), and zero when no resolvable fragment exists. -/
theorem getStartDTS_min (initData : InitData) (fmp4 : List Nat)
    (h : ∀ traf ∈ findBoxTop fmp4 [moofT, trafT],
      findBox fmp4 traf.start traf.stop [tfdtT] ≠ []) :
    getStartDTS initData fmp4 =
      some ((listMin? (startDTSTimes initData fmp4)).getD 0) := by
  rw [getStartDTS, getStartDTS_go initData fmp4 (findBoxTop fmp4 [moofT, trafT]) none h]
  rw [startDTSTimes]
  rfl

theorem getStartDTS_min_witness :
    (∀ traf ∈ findBoxTop
        [0, 0, 0, 48, 109, 111, 111, 102, 0, 0, 0, 40, 116, 114, 97, 102,
         0, 0, 0, 16, 116, 102, 104, 100, 0, 0, 0, 0, 0, 0, 0, 1,
         0, 0, 0, 16, 116, 102, 100, 116, 0, 0, 0, 0, 0, 0, 1, 44] [moofT, trafT],
      findBox
        [0, 0, 0, 48, 109, 111, 111, 102, 0, 0, 0, 40, 116, 114, 97, 102,
         0, 0, 0, 16, 116, 102, 104, 100, 0, 0, 0, 0, 0, 0, 0, 1,
         0, 0, 0, 16, 116, 102, 100, 116, 0, 0, 0, 0, 0, 0, 1, 44]
        traf.start traf.stop [tfdtT] ≠ []) ∧
    getStartDTS [(1, ⟨100⟩)]
        [0, 0, 0, 48, 109, 111, 111, 102, 0, 0, 0, 40, 116, 114, 97, 102,
         0, 0, 0, 16, 116, 102, 104, 100, 0, 0, 0, 0, 0, 0, 0, 1,
         0, 0, 0, 16, 116, 102, 100, 116, 0, 0, 0, 0, 0, 0, 1, 44] =
      some ((listMin? (startDTSTimes [(1, ⟨100⟩)]
        [0, 0, 0, 48, 109, 111, 111, 102, 0, 0, 0, 40, 116, 114, 97, 102,
         0, 0, 0, 16, 116, 102, 104, 100, 0, 0, 0, 0, 0, 0, 0, 1,
         0, 0, 0, 16, 116, 102, 100, 116, 0, 0, 0, 0, 0, 0, 1, 44])).getD 0) :=
  ⟨by decide, getStartDTS_min [(1, ⟨100⟩)] _ (by decide)⟩

/-- C6 fails as stated: on a fragment containing a moof/traf with no tfdt
(here the traf contains nothing at all, so no resolvable pair exists and the
claim demands the result zero), the source throws dereferencing
findBox(traf, [tfdt])[0], modelled as none. -/
theorem getStartDTS_counterexample :
    getStartDTS [] [0, 0, 0, 16, 109, 111, 111, 102, 0, 0, 0, 8, 116, 114, 97, 102] = none ∧
      getStartDTS [] [0, 0, 0, 16, 109, 111, 111, 102, 0, 0, 0, 8, 116, 114, 97, 102] ≠
        some 0 := by
  constructor <;> decide

end Mp4Tools
